import Mathlib

/-!
Verification of the pyfpdf document-assembly engine against its
natural-language specification.

This file is a shallow embedding of the parts of `fpdf/fpdf.py`,
`fpdf/helpers.py` and `fpdf/pdf_settings.py` that the checked
properties talk about: the output-destination selection, the font and
image registries, the page-lifecycle state machine, the automatic
page-break logic of `cell`/`image`, the `multi_cell` word-wrap and
justify loop, the object/xref serializer, and the CID
width-range compression of `_putTTfontwidths`.

Machine floats of the Python source are modelled as rationals;
Python dicts that are only extended are modelled as association
lists in insertion order.
-/

namespace PyFPDF

/-- Document lifecycle states, from `class DocumentState(Enum)` in fpdf.py. -/
inductive DocState where
  | UNSTARTED
  | OPEN_IDLE
  | WRITING_PAGE
  | TERMINATED
deriving DecidableEq, Repr

/-- Python `str.upper()` restricted to ASCII, character-by-character
(all the strings the source upper-cases are ASCII destination codes and
font styles). -/
def pyUpper (s : String) : String := String.mk (s.data.map Char.toUpper)

/-- Python `str.lower()` restricted to ASCII (font family names). -/
def pyLower (s : String) : String := String.mk (s.data.map Char.toLower)

/-! ## Output destination selection (`FPDF.output`, fpdf.py lines 917-950) -/

/-- The three kinds of output destination reachable in `FPDF.output`. -/
inductive OutDest where
  | stdoutDest
  | fileDest (name : String)
  | byteStringDest
deriving DecidableEq, Repr

/-- Destination-selection logic of `FPDF.output`:
`dest = dest.upper()`; an empty dest code defaults to `'I'` (stdout) when
`name` is empty and to `'F'` (file) otherwise; `'I'`/`'D'` write to stdout,
`'F'` writes to the named file, `'S'` returns the byte string, and anything
else raises `CatchAllError('Incorrect output destination: ...')`. -/
def outputSelectDest (name dest : String) : Except String OutDest :=
  let d := pyUpper dest
  let d := if d = "" then (if name = "" then "I" else "F") else d
  if d = "I" ∨ d = "D" then Except.ok OutDest.stdoutDest
  else if d = "F" then Except.ok (OutDest.fileDest name)
  else if d = "S" then Except.ok OutDest.byteStringDest
  else Except.error ("Incorrect output destination: " ++ d)

/-- **C8 counterexample.** With an empty file name and an empty destination
code, `FPDF.output` does not fail: it falls through to the `'I'` destination
and writes the buffer to standard output. -/
theorem output_empty_empty_no_error :
    outputSelectDest "" "" = Except.ok OutDest.stdoutDest ∧
    ∀ e, outputSelectDest "" "" ≠ Except.error e := by
  refine ⟨rfl, fun e h => ?_⟩
  rw [show outputSelectDest "" "" = Except.ok OutDest.stdoutDest from rfl] at h
  exact Except.noConfusion h

/-- **C8 (amended).** `FPDF.output` raises an `Incorrect output destination`
error precisely when the upper-cased destination code is non-empty and none
of `I`, `D`, `F`, `S`; an empty destination code (with or without a name)
never fails and selects stdout resp. file output. -/
theorem output_dest_error_iff (name dest : String) :
    (∃ e, outputSelectDest name dest = Except.error e) ↔
      ¬ (pyUpper dest = "" ∨ pyUpper dest = "I" ∨ pyUpper dest = "D" ∨
         pyUpper dest = "F" ∨ pyUpper dest = "S") := by
  unfold outputSelectDest
  by_cases h0 : pyUpper dest = ""
  · by_cases hN : name = "" <;> simp [h0, hN]
  · by_cases hI : pyUpper dest = "I"
    · simp [h0, hI]
    · by_cases hD : pyUpper dest = "D"
      · simp [h0, hI, hD]
      · by_cases hF : pyUpper dest = "F"
        · simp [h0, hI, hD, hF]
        · by_cases hS : pyUpper dest = "S"
          · simp [h0, hI, hD, hF, hS]
          · simp [h0, hI, hD, hF, hS]

/-! ## Font registry (`FPDF.add_font`, fpdf.py lines 290-303) -/

/-- A registered font record; the claims only need its identity, so the
metric payload is abstracted to an index plus a tag. -/
structure FontRec where
  i : Nat
  payload : String
deriving DecidableEq, Repr

/-- The three registries touched by `FPDF.add_font`:
`self.fonts`, `self.font_files` and `self.diffs`. -/
structure FontRegs where
  fonts : List (String × FontRec)
  fontFiles : List (String × String)
  diffs : List (Nat × String)
deriving DecidableEq, Repr

/-- Font-key normalization performed at the top of `FPDF.add_font`:
family lower-cased, `arial` mapped to `helvetica`, style upper-cased,
`IB` mapped to `BI`, key = family ++ style. -/
def addFontKey (fontFamily fontStyle : String) : String :=
  let fam := pyLower fontFamily
  let fam := if fam = "arial" then "helvetica" else fam
  let sty := pyUpper fontStyle
  let sty := if sty = "IB" then "BI" else sty
  fam ++ sty

/-- `FPDF.add_font`: normalize the key; if the key is already registered,
return immediately; otherwise run the registration body (metric loading,
cache IO and registry insertion, abstracted here as `registerNew` since it
only runs on the first registration of a key). -/
def add_font (registerNew : FontRegs → String → String → Bool → FontRegs)
    (st : FontRegs) (fontFamily fontStyle fontName : String) (uni : Bool) :
    FontRegs :=
  let fontKey := addFontKey fontFamily fontStyle
  if (st.fonts.find? (fun p => p.1 == fontKey)).isSome then st
  else registerNew st fontKey fontName uni

/-- **C10.** Calling `add_font` with a family and style that normalize to an
already-registered font key returns immediately and leaves the `fonts`,
`font_files` and `diffs` registries untouched, whatever the `font_name` and
`uni` arguments and whatever the registration body would have done. -/
theorem add_font_duplicate_noop
    (registerNew : FontRegs → String → String → Bool → FontRegs)
    (st : FontRegs) (fontFamily fontStyle fontName : String) (uni : Bool)
    (h : (st.fonts.find?
      (fun p => p.1 == addFontKey fontFamily fontStyle)).isSome = true) :
    add_font registerNew st fontFamily fontStyle fontName uni = st := by
  unfold add_font
  simp only [h, if_pos]

/-- **C10 witness.** A registry holding key `helveticaBI`; re-adding with
family `Arial` and style `ib` (which normalize to the same key) is a no-op
even though the registration body would wipe the registries. -/
theorem add_font_duplicate_noop_witness :
    ((FontRegs.mk [("helveticaBI", ⟨1, "f"⟩)] [] []).fonts.find?
      (fun p => p.1 == addFontKey "Arial" "ib")).isSome = true ∧
    add_font (fun _ _ _ _ => ⟨[], [], []⟩)
      ⟨[("helveticaBI", ⟨1, "f"⟩)], [], []⟩ "Arial" "ib" "arialbi.pkl" true =
      ⟨[("helveticaBI", ⟨1, "f"⟩)], [], []⟩ :=
  ⟨by decide, add_font_duplicate_noop _ _ _ _ _ _ (by decide)⟩

/-! ## The `check_page` drawing guard (helpers.py lines 64-76)

Every drawing/layout method of `FPDF` (`text`, `rotate`, `cell`,
`multi_cell`, `write`, `image`, `ln`, `insert`, `interleaved2of5`,
`code39`) is decorated with `@check_page`, which raises
`CatchAllError("No page open, you need to call add_page() first")`
when `self.current_page` is falsy (i.e. `0`) and the call did not pass
`split_only` as a keyword argument; otherwise it runs the method body. -/

/-- The mutable document fields a simple guarded drawing call (`ln`)
reads and writes. -/
structure DrawSt where
  state : DocState
  currentPage : Nat
  x : ℚ
  y : ℚ
  lasth : ℚ
  leftMargin : ℚ
deriving DecidableEq, Repr

/-- The `check_page` decorator from helpers.py: fail fast iff
`current_page == 0` and `split_only` was not passed; otherwise run the
wrapped method body `fn` unchanged. -/
def check_page {α : Type} (splitOnly : Bool)
    (fn : DrawSt → Except String (DrawSt × α)) (st : DrawSt) :
    Except String (DrawSt × α) :=
  if st.currentPage = 0 ∧ splitOnly = false then
    Except.error "No page open, you need to call add_page() first"
  else fn st

/-- Body of `FPDF.ln` (fpdf.py lines 880-887): x back to the left margin,
y advanced by `h`, or by the last cell height when `h` is the default
(string) argument, modelled as `none`. -/
def lnBody (h : Option ℚ) (st : DrawSt) : DrawSt :=
  { st with x := st.leftMargin,
            y := st.y + (match h with | none => st.lasth | some hh => hh) }

/-- A document on which `close()` has run: terminated, one page emitted. -/
def closedDoc : DrawSt :=
  { state := DocState.TERMINATED, currentPage := 1,
    x := 10, y := 10, lasth := 5, leftMargin := 1 }

/-- **C5 counterexample.** The guard tests `current_page == 0`, not the
document state: on a closed (Terminated) document — which is not in the
WritingPage state — a guarded drawing call such as `ln` does not raise;
it runs and mutates the cursor. -/
theorem check_page_after_close_no_error :
    closedDoc.state ≠ DocState.WRITING_PAGE ∧
    check_page false (fun st => Except.ok (lnBody none st, ())) closedDoc =
      Except.ok (⟨DocState.TERMINATED, 1, 1, 15, 5, 1⟩, ()) := by
  constructor
  · decide
  · show Except.ok (lnBody none closedDoc, ()) = _
    unfold lnBody closedDoc
    norm_num

/-- **C5 (amended).** A `check_page`-guarded drawing operation fails fast
with the usage error — leaving the document untouched, since the body never
runs — if and only if no page was ever opened (`current_page = 0`) and the
call is not a `split_only` call; in every other situation (including a
Terminated document after `close()`, where `current_page ≥ 1`) the guard
passes and the body runs. -/
theorem check_page_guard_characterization {α : Type} (splitOnly : Bool)
    (fn : DrawSt → Except String (DrawSt × α)) (st : DrawSt) :
    (st.currentPage = 0 ∧ splitOnly = false →
      check_page splitOnly fn st =
        Except.error "No page open, you need to call add_page() first") ∧
    (st.currentPage ≠ 0 ∨ splitOnly = true →
      check_page splitOnly fn st = fn st) := by
  constructor
  · intro h
    unfold check_page
    rw [if_pos h]
  · intro h
    unfold check_page
    rw [if_neg]
    rintro ⟨h0, hs⟩
    rcases h with h | h
    · exact h h0
    · rw [h] at hs; exact Bool.noConfusion hs

/-- **C5 witness.** The guard characterization applied on both sides:
a fresh document (no page) fails fast, and the closed document of the
counterexample runs the body. -/
theorem check_page_guard_characterization_witness :
    (check_page false (fun st => Except.ok (lnBody none st, ()))
        { state := DocState.UNSTARTED, currentPage := 0,
          x := 0, y := 0, lasth := 0, leftMargin := 1 } =
      Except.error "No page open, you need to call add_page() first") ∧
    (check_page false (fun st => Except.ok (lnBody none st, ())) closedDoc =
      Except.ok (lnBody none closedDoc, ())) := by
  constructor
  · exact (check_page_guard_characterization false _ _).1 ⟨rfl, rfl⟩
  · exact (check_page_guard_characterization false _ closedDoc).2
      (Or.inl (by decide))

/-! ## Image registry (`FPDF.image`, fpdf.py lines 805-852, and
`postprocess_image_dict`, lines 1783-1788) -/

/-- Parser output for an image (`_parsejpg`/`_parsepng`/`_parsegif`) before
the registry assigns its resource index: the color space (read by the
stencil-mask check) plus the remaining descriptor payload, abstracted. -/
structure ImgParsed where
  cs : String
  payload : String
deriving DecidableEq, Repr

/-- A stored image descriptor: resource index `i` (`info['i']`), color
space, payload, and the optional `info['masked']` soft-mask reference. -/
structure ImgInfo where
  i : Nat
  cs : String
  payload : String
  masked : Option Nat
deriving DecidableEq, Repr

/-- The registry branch of `FPDF.image`: a name already present in
`self.images` returns the cached descriptor without calling any parser;
a fresh name invokes the parser, gets resource index `len(images) + 1`,
is checked against the stencil-mask grayscale rule, and is stored.
The returned Bool records whether the parser was invoked. -/
def imageRegister (parse : String → ImgParsed)
    (images : List (String × ImgInfo)) (name : String)
    (isMask : Bool) (maskImage : Option Nat) :
    Except String (List (String × ImgInfo) × ImgInfo × Bool) :=
  match images.find? (fun p => p.1 == name) with
  | some p => Except.ok (images, p.2, false)
  | none =>
      let parsed := parse name
      if isMask ∧ parsed.cs ≠ "DeviceGray" then
        Except.error "Mask must be a gray scale image"
      else
        let info : ImgInfo :=
          { i := images.length + 1, cs := parsed.cs,
            payload := parsed.payload, masked := maskImage }
        Except.ok (images ++ [(name, info)], info, true)

/-- One registry interaction: register `(name, isMask, maskImage)`; an
error aborts the build, so the registry is not extended in that case. -/
def imageRegStep (parse : String → ImgParsed)
    (images : List (String × ImgInfo)) (req : String × Bool × Option Nat) :
    List (String × ImgInfo) :=
  match imageRegister parse images req.1 req.2.1 req.2.2 with
  | Except.ok (imgs, _, _) => imgs
  | Except.error _ => images

/-- A whole document lifetime of image registrations. -/
def imageRegMany (parse : String → ImgParsed)
    (images : List (String × ImgInfo))
    (reqs : List (String × Bool × Option Nat)) : List (String × ImgInfo) :=
  reqs.foldl (imageRegStep parse) images

/-- Registration never disturbs an existing entry: a stored descriptor
survives any later sequence of registrations unchanged. -/
theorem imageRegMany_preserves (parse : String → ImgParsed)
    (images : List (String × ImgInfo)) (name : String) (p : String × ImgInfo)
    (reqs : List (String × Bool × Option Nat))
    (h : images.find? (fun q => q.1 == name) = some p) :
    (imageRegMany parse images reqs).find? (fun q => q.1 == name) = some p := by
  induction reqs generalizing images with
  | nil => exact h
  | cons r rs ih =>
      apply ih
      unfold imageRegStep imageRegister
      cases hf : images.find? (fun q => q.1 == r.1) with
      | some q => simpa [hf] using h
      | none =>
          by_cases hm : r.2.1 = true ∧ (parse r.1).cs ≠ "DeviceGray"
          · simpa [hf, hm] using h
          · simp only [hf, hm, if_neg, ite_false]
            rw [List.find?_append, h]
            rfl

/-- **C7.** Image registration is de-duplicated by name:
(i) a name already in the registry returns the cached descriptor, with its
identical resource index, leaves the registry unchanged, and does not
invoke the parser; (ii) the first use of a name invokes the parser and
stores the descriptor under the next resource index `len(images) + 1`;
(iii) once stored, the descriptor (index included) survives any later
sequence of registrations for the rest of the document's lifetime. -/
theorem image_register_dedup (parse : String → ImgParsed)
    (images : List (String × ImgInfo)) (name : String)
    (isMask : Bool) (maskImage : Option Nat) :
    (∀ p, images.find? (fun q => q.1 == name) = some p →
      imageRegister parse images name isMask maskImage =
        Except.ok (images, p.2, false)) ∧
    (images.find? (fun q => q.1 == name) = none →
      ¬ (isMask = true ∧ (parse name).cs ≠ "DeviceGray") →
      imageRegister parse images name isMask maskImage =
        Except.ok (images ++ [(name,
            { i := images.length + 1, cs := (parse name).cs,
              payload := (parse name).payload, masked := maskImage })],
          { i := images.length + 1, cs := (parse name).cs,
            payload := (parse name).payload, masked := maskImage }, true)) ∧
    (∀ p reqs, images.find? (fun q => q.1 == name) = some p →
      (imageRegMany parse images reqs).find? (fun q => q.1 == name) = some p) := by
  refine ⟨?_, ?_, ?_⟩
  · intro p hp
    unfold imageRegister
    rw [hp]
  · intro hn hm
    unfold imageRegister
    rw [hn]
    simp only [hm, if_neg, ite_false]
  · intro p reqs hp
    exact imageRegMany_preserves parse images name p reqs hp

/-- **C7 witness.** A registry holding `a.png` at index 1: re-registering
`a.png` is a cache hit (no parse), registering fresh `b.png` parses and gets
index 2, and `a.png`'s entry survives a later mixed request sequence. -/
theorem image_register_dedup_witness :
    ([( "a.png", ImgInfo.mk 1 "DeviceRGB" "d" none )].find?
        (fun q => q.1 == "a.png") = some ("a.png", ImgInfo.mk 1 "DeviceRGB" "d" none)) ∧
    imageRegister (fun _ => ⟨"DeviceRGB", "fresh"⟩)
        [("a.png", ImgInfo.mk 1 "DeviceRGB" "d" none)] "a.png" false none =
      Except.ok ([("a.png", ImgInfo.mk 1 "DeviceRGB" "d" none)],
        ImgInfo.mk 1 "DeviceRGB" "d" none, false) ∧
    imageRegister (fun _ => ⟨"DeviceRGB", "fresh"⟩)
        [("a.png", ImgInfo.mk 1 "DeviceRGB" "d" none)] "b.png" false none =
      Except.ok ([("a.png", ImgInfo.mk 1 "DeviceRGB" "d" none),
        ("b.png", ImgInfo.mk 2 "DeviceRGB" "fresh" none)],
        ImgInfo.mk 2 "DeviceRGB" "fresh" none, true) ∧
    (imageRegMany (fun _ => ⟨"DeviceRGB", "fresh"⟩)
        [("a.png", ImgInfo.mk 1 "DeviceRGB" "d" none)]
        [("b.png", false, none), ("a.png", false, none), ("c.gif", true, none)]).find?
        (fun q => q.1 == "a.png") = some ("a.png", ImgInfo.mk 1 "DeviceRGB" "d" none) := by
  refine ⟨by decide, ?_, ?_, ?_⟩
  · exact (image_register_dedup (fun _ => ⟨"DeviceRGB", "fresh"⟩)
      [("a.png", ImgInfo.mk 1 "DeviceRGB" "d" none)] "a.png" false none).1
      ("a.png", ImgInfo.mk 1 "DeviceRGB" "d" none) (by decide)
  · exact (image_register_dedup (fun _ => ⟨"DeviceRGB", "fresh"⟩)
      [("a.png", ImgInfo.mk 1 "DeviceRGB" "d" none)] "b.png" false none).2.1
      (by decide) (by decide)
  · exact (image_register_dedup (fun _ => ⟨"DeviceRGB", "fresh"⟩)
      [("a.png", ImgInfo.mk 1 "DeviceRGB" "d" none)] "a.png" false none).2.2
      ("a.png", ImgInfo.mk 1 "DeviceRGB" "d" none)
      [("b.png", false, none), ("a.png", false, none), ("c.gif", true, none)]
      (by decide)

/-! ## Document close / termination (`FPDF.close`, fpdf.py lines 131-141) -/

/-- Observable lifecycle events of the close sequence. -/
inductive LifeEv where
  | pageStarted (n : Nat)
  | headerEv
  | footerEv
  | enddocEv
deriving DecidableEq, Repr

/-- Lifecycle slice of the document state: the state machine field, the
page counter and the trace of lifecycle events (content emission and the
serializer internals are modelled separately for C1). -/
structure LifeSt where
  state : DocState
  currentPage : Nat
  events : List LifeEv
deriving DecidableEq, Repr

/-- `FPDF.add_footer`: runs the footer callback (recorded as an event;
the `in_footer` flag round-trips to its old value). -/
def addFooter9 (st : LifeSt) : LifeSt :=
  { st with events := st.events ++ [LifeEv.footerEv] }

/-- `FPDF._endpage`: back to OPEN_IDLE. -/
def endpage9 (st : LifeSt) : LifeSt := { st with state := DocState.OPEN_IDLE }

/-- `FPDF._enddoc` at the lifecycle level: serializes the document
(modelled in the `Serial` section) and terminates the state machine. -/
def enddoc9 (st : LifeSt) : LifeSt :=
  { st with state := DocState.TERMINATED,
            events := st.events ++ [LifeEv.enddocEv] }

/-- `FPDF.add_page` at the lifecycle level: UNSTARTED becomes OPEN_IDLE; if
a page is open its footer runs and it is finalized; then `_beginpage`
increments the page counter and enters WRITING_PAGE, and the header
callback runs (font-setting snapshots and content emission not tracked
here). -/
def add_page9 (st : LifeSt) : LifeSt :=
  let st := if st.state = DocState.UNSTARTED
    then { st with state := DocState.OPEN_IDLE } else st
  let st := if st.currentPage > 0 then endpage9 (addFooter9 st) else st
  let st := { st with currentPage := st.currentPage + 1,
                      state := DocState.WRITING_PAGE,
                      events := st.events ++ [LifeEv.pageStarted (st.currentPage + 1)] }
  { st with events := st.events ++ [LifeEv.headerEv] }

/-- `FPDF.close`: a no-op on a Terminated document; otherwise opens a page
if none was ever opened, runs the final footer, finalizes the page and
hands off to the serializer. -/
def close9 (st : LifeSt) : LifeSt :=
  if st.state = DocState.TERMINATED then st
  else
    let st := if st.currentPage = 0 then add_page9 st else st
    enddoc9 (endpage9 (addFooter9 st))

/-- On a Terminated document `close` returns at once, leaving the document
verbatim unchanged. -/
theorem close9_term_noop (s : LifeSt) (h : s.state = DocState.TERMINATED) :
    close9 s = s := by
  unfold close9
  rw [if_pos h]

/-- `close` always leaves the document Terminated. -/
theorem close9_terminates (s : LifeSt) :
    (close9 s).state = DocState.TERMINATED := by
  unfold close9
  by_cases h : s.state = DocState.TERMINATED
  · rw [if_pos h]; exact h
  · rw [if_neg h]; rfl

/-- **C9.** `close` is idempotent: on a Terminated document it returns with
the state verbatim unchanged (so a second call has no effect at all), and
when no page was ever opened the first `close` opens exactly one page —
running the header, then the final footer — before finalizing. -/
theorem close_idempotent_and_opens_page (st : LifeSt) :
    close9 (close9 st) = close9 st ∧
    (st.state = DocState.TERMINATED → close9 st = st) ∧
    (st.state ≠ DocState.TERMINATED → st.currentPage = 0 →
      (close9 st).currentPage = 1 ∧
      (close9 st).state = DocState.TERMINATED ∧
      (close9 st).events = st.events ++
        [LifeEv.pageStarted 1, LifeEv.headerEv, LifeEv.footerEv,
         LifeEv.enddocEv]) := by
  refine ⟨close9_term_noop _ (close9_terminates st), close9_term_noop st, ?_⟩
  intro hne h0
  unfold close9
  rw [if_neg hne, if_pos h0]
  unfold add_page9 addFooter9 endpage9 enddoc9
  by_cases hu : st.state = DocState.UNSTARTED <;>
    simp [hu, h0, List.append_assoc]

/-- **C9 witness.** A fresh document: closing yields one page, the event
trace `pageStarted 1, header, footer, enddoc`, a Terminated state, and a
second close that changes nothing; a Terminated document is untouched. -/
theorem close_idempotent_and_opens_page_witness :
    (close9 (close9 ⟨DocState.UNSTARTED, 0, []⟩) =
      close9 ⟨DocState.UNSTARTED, 0, []⟩) ∧
    (close9 ⟨DocState.TERMINATED, 1, []⟩ = ⟨DocState.TERMINATED, 1, []⟩) ∧
    ((close9 ⟨DocState.UNSTARTED, 0, []⟩).currentPage = 1 ∧
      (close9 ⟨DocState.UNSTARTED, 0, []⟩).state = DocState.TERMINATED ∧
      (close9 ⟨DocState.UNSTARTED, 0, []⟩).events =
        [] ++ [LifeEv.pageStarted 1, LifeEv.headerEv, LifeEv.footerEv,
          LifeEv.enddocEv]) :=
  ⟨(close_idempotent_and_opens_page ⟨DocState.UNSTARTED, 0, []⟩).1,
   (close_idempotent_and_opens_page ⟨DocState.TERMINATED, 1, []⟩).2.1 rfl,
   (close_idempotent_and_opens_page ⟨DocState.UNSTARTED, 0, []⟩).2.2
     (by decide) rfl⟩

/-! ## Automatic page break (`FPDF.cell`, fpdf.py lines 530-545, and
`FPDF.image` flowing mode, lines 862-870) -/

/-- Content-stream events the page-break prologue can produce: a
word-spacing operator `<q> Tw` (the float formatting of the source is
abstracted to the rational operand) or a page transition
(`add_page(same=True)`: footer, page finalization, new page, header). -/
inductive PBEv where
  | tw (q : ℚ)
  | pageStart
deriving DecidableEq, Repr

/-- The document fields the page-break prologue of `cell`/`image` reads and
writes. -/
structure PBSt where
  x : ℚ
  y : ℚ
  currentPage : Nat
  wordSpacing : ℚ
  pageBreakTrigger : ℚ
  autoPageBreak : Bool
  inFooter : Bool
  leftMargin : ℚ
  topMargin : ℚ
  scale : ℚ
  evs : List PBEv
deriving DecidableEq, Repr

/-- The page-break guard shared by `cell` and `image`:
`self.y + h > self.settings.page_break_trigger and not self.in_footer and
self.settings.auto_page_break`. -/
def breakCond (st : PBSt) (h : ℚ) : Prop :=
  st.y + h > st.pageBreakTrigger ∧ st.inFooter = false ∧
    st.autoPageBreak = true

instance (st : PBSt) (h : ℚ) : Decidable (breakCond st h) := by
  unfold breakCond; infer_instance

/-- `add_page(same=True)` as seen from the break prologue: `_beginpage`
increments the page counter and resets the cursor to the top-left margin;
geometry is kept (`same`), default header/footer callbacks are no-ops. -/
def addPageSame (st : PBSt) : PBSt :=
  { st with currentPage := st.currentPage + 1,
            x := st.leftMargin, y := st.topMargin,
            evs := st.evs ++ [PBEv.pageStart] }

/-- The automatic-page-break prologue of `FPDF.cell` (lines 534-545):
if the guard holds, save x, zero a positive word spacing (emitting `0 Tw`),
break the page, restore x, and reissue the word-spacing operator. -/
def cellAutoBreak (st : PBSt) (h : ℚ) : PBSt :=
  if breakCond st h then
    let x := st.x
    let ws := st.wordSpacing
    let st := if ws > 0 then
        { st with wordSpacing := 0, evs := st.evs ++ [PBEv.tw 0] } else st
    let st := addPageSame st
    let st := { st with x := x }
    if ws > 0 then
      { st with wordSpacing := ws,
                evs := st.evs ++ [PBEv.tw (ws * st.scale)] }
    else st
  else st

/-- The flowing-mode (`y is None`) prologue of `FPDF.image`
(lines 863-870): same guard; on break save and restore x around
`add_page(same=True)`; then resolve the drawing y to the cursor and advance
the cursor by the image height. Returns the new state and the resolved y. -/
def imageFlowBreak (st : PBSt) (h : ℚ) : PBSt × ℚ :=
  let st :=
    if breakCond st h then
      let x := st.x
      let st := addPageSame st
      { st with x := x }
    else st
  ({ st with y := st.y + h }, st.y)

/-- **C3.** `cell` and flowing-mode `image` trigger the automatic page
break — `add_page(same=True)` with the horizontal cursor preserved, and in
`cell` a positive word spacing zeroed and reissued around the break — if
and only if `y + h > pageBreakTrigger`, the call is not inside the footer
callback, and automatic page break is enabled; otherwise the prologue
changes nothing (beyond `image`'s normal cursor advance). -/
theorem auto_page_break_iff (st : PBSt) (h : ℚ) :
    ((cellAutoBreak st h).currentPage = st.currentPage + 1 ↔ breakCond st h) ∧
    (¬ breakCond st h → cellAutoBreak st h = st) ∧
    (breakCond st h →
      (cellAutoBreak st h).x = st.x ∧
      (cellAutoBreak st h).wordSpacing = st.wordSpacing ∧
      (cellAutoBreak st h).y = st.topMargin ∧
      (st.wordSpacing > 0 →
        (cellAutoBreak st h).evs =
          st.evs ++ [PBEv.tw 0, PBEv.pageStart,
            PBEv.tw (st.wordSpacing * st.scale)]) ∧
      (¬ st.wordSpacing > 0 →
        (cellAutoBreak st h).evs = st.evs ++ [PBEv.pageStart])) ∧
    ((imageFlowBreak st h).1.currentPage = st.currentPage + 1 ↔
      breakCond st h) ∧
    (breakCond st h →
      (imageFlowBreak st h).1.x = st.x ∧
      (imageFlowBreak st h).1.evs = st.evs ++ [PBEv.pageStart] ∧
      (imageFlowBreak st h).2 = st.topMargin) ∧
    (¬ breakCond st h →
      (imageFlowBreak st h).1 = { st with y := st.y + h } ∧
      (imageFlowBreak st h).2 = st.y) := by
  by_cases hb : breakCond st h <;>
    by_cases hw : st.wordSpacing > 0 <;>
      simp [cellAutoBreak, imageFlowBreak, addPageSame, hb, hw]

/-- **C3 witness.** A concrete page about to overflow (y 100, element
height 10, trigger 105) with word spacing 2: the break fires, x is kept,
and the `0 Tw` / `2 Tw` pair brackets the page start; the same state with
auto-break disabled does not fire. -/
theorem auto_page_break_iff_witness :
    (breakCond ⟨7, 100, 3, 2, 105, true, false, 1, 9, 1, []⟩ 10 ∧
      (cellAutoBreak ⟨7, 100, 3, 2, 105, true, false, 1, 9, 1, []⟩ 10).x = 7 ∧
      (cellAutoBreak ⟨7, 100, 3, 2, 105, true, false, 1, 9, 1, []⟩ 10).evs =
        [] ++ [PBEv.tw 0, PBEv.pageStart, PBEv.tw (2 * 1)]) ∧
    (¬ breakCond ⟨7, 100, 3, 2, 105, false, false, 1, 9, 1, []⟩ 10 ∧
      cellAutoBreak ⟨7, 100, 3, 2, 105, false, false, 1, 9, 1, []⟩ 10 =
        ⟨7, 100, 3, 2, 105, false, false, 1, 9, 1, []⟩) := by
  have hb : breakCond ⟨7, 100, 3, 2, 105, true, false, 1, 9, 1, []⟩ 10 := by
    refine ⟨by norm_num, rfl, rfl⟩
  have hnb : ¬ breakCond ⟨7, 100, 3, 2, 105, false, false, 1, 9, 1, []⟩ 10 := by
    rintro ⟨-, -, hba⟩
    exact Bool.noConfusion hba
  refine ⟨⟨hb, ?_, ?_⟩, hnb, ?_⟩
  · exact ((auto_page_break_iff _ 10).2.2.1 hb).1
  · exact (((auto_page_break_iff _ 10).2.2.1 hb).2.2.2.1 (by norm_num))
  · exact (auto_page_break_iff _ 10).2.1 hnb

/-! ## `multi_cell` word wrap and justification (fpdf.py lines 622-734)

The embedding keeps the source's loop variables: `j` is the start of the
current line, `i = j + k` the scan position, `l` the running width in
thousandths, `sep`/`ls`/`ns` the last-space bookkeeping. Character widths
are a parameter `cw : Char → ℚ` (the source reads `char_width.get(c, 0)`
for single-byte fonts and `get_string_width(c) / font_size * 1000` for
unicode subsets). The `-1` sentinel of `sep` is modelled as `Option`. -/

/-- `substr(s, j, n)` from helpers.py: the slice `s[j : j + n]`. -/
def sliceStr (s : List Char) (j n : Nat) : List Char := (s.drop j).take n

/-- Width of a line in thousandths: the sum of its character widths. -/
def lineWidth (cw : Char → ℚ) (xs : List Char) : ℚ := (xs.map cw).sum

/-- Number of space characters in a slice (the source's `ns` counter). -/
def countSp (xs : List Char) : Nat := xs.countP (fun c => c == ' ')

/-- How the scan of one `multi_cell` line ends. Positions are offsets from
the line start `j`: an explicit newline at `j + k`; a forced break (no
space seen, line length `kp + 1`); an overflow broken at the recorded
space `j + ksep` with its recorded width `ls` and space count `ns`; or the
end of the text with `k` characters left over. -/
inductive LineEnd where
  | nl (k : Nat)
  | force (kp : Nat)
  | sepBreak (ksep : Nat) (ls : ℚ) (ns : Nat)
  | eot (k : Nat)
deriving DecidableEq, Repr

/-- The inner character scan of the `multi_cell` `while i < nb` loop
(fpdf.py lines 657-721) between two line breaks. `rem` is the exact
number of characters left to the end of the text (`nb - (j + k)`), making
the upward scan structural; the loop body reads `c = s[i]`, handles an
explicit newline, records the last space (`sep = i; ls = l; ns += 1`),
adds the character width, and breaks when `l` exceeds `wmax` - at the
current character if no space was seen (advancing `i` when `i == j` to
avoid an infinite loop), else at the recorded space. -/
def scanLine (cw : Char → ℚ) (wmax : ℚ) (s : List Char) (j : Nat) :
    Nat → Nat → Option Nat → ℚ → Nat → ℚ → LineEnd
  | 0, k, _, _, _, _ => LineEnd.eot k
  | rem + 1, k, sep, ls, ns, l =>
      let c := s.getD (j + k) ' '
      if c = '\n' then LineEnd.nl k
      else
        let sep2 := if c = ' ' then some k else sep
        let ls2 := if c = ' ' then l else ls
        let ns2 := if c = ' ' then ns + 1 else ns
        let l2 := l + cw c
        if l2 > wmax then
          match sep2 with
          | none => LineEnd.force (if k = 0 then 0 else k - 1)
          | some ksep => LineEnd.sepBreak ksep ls2 ns2
        else scanLine cw wmax s j rem (k + 1) sep2 ls2 ns2 l2

/-- The `border` argument of `multi_cell`: the integers `0`/`1` or a
string of `L`/`T`/`R`/`B` flags. -/
inductive BorderArg where
  | intB (n : Nat)
  | strB (fl : List Char)
deriving DecidableEq, Repr

/-- The border value handed to each `cell` call: the integer `0` or a
flag string. -/
inductive CellB where
  | intB (n : Nat)
  | strB (fl : List Char)
deriving DecidableEq, Repr

/-- Python truthiness of the border argument. -/
def borderTruthy : BorderArg → Bool
  | BorderArg.intB n => n != 0
  | BorderArg.strB fl => fl != []

/-- Flag characters of a border argument (empty for integers). -/
def borderFlags : BorderArg → List Char
  | BorderArg.intB _ => []
  | BorderArg.strB fl => fl

/-- `border == 1` is reassigned to the string `'LTRB'` before the loop, so
the final `'B' in border` check sees the string form. -/
def borderFinal : BorderArg → BorderArg
  | BorderArg.intB 1 => BorderArg.strB ['L', 'T', 'R', 'B']
  | x => x

/-- The `b`/`b2` border computation before the loop (fpdf.py lines
635-650): `border == 1` gives `b = 'LRT'`, `b2 = 'LR'`; a flag string
keeps its `L`/`R` flags on every line and its `T` flag on the first. -/
def borderSetup : BorderArg → CellB × CellB
  | BorderArg.intB 1 => (CellB.strB ['L', 'R', 'T'], CellB.strB ['L', 'R'])
  | BorderArg.strB fl =>
      let b2 := (if 'L' ∈ fl then ['L'] else []) ++
        (if 'R' ∈ fl then ['R'] else [])
      (if 'T' ∈ fl then CellB.strB (b2 ++ ['T']) else CellB.strB b2,
        CellB.strB b2)
  | BorderArg.intB n => (CellB.intB 0, CellB.intB n)

/-- `b += 'B'` for the last produced line. -/
def appendB : CellB → CellB
  | CellB.strB fl => CellB.strB (fl ++ ['B'])
  | CellB.intB n => CellB.intB n

/-- Content-stream events `multi_cell` can emit when not in `split_only`
mode: a `<q> Tw` word-spacing operator, or a `cell(w, h, txt, b, 2, align,
fill)` call carrying the line text and border flags. -/
inductive MCEv where
  | twOp (q : ℚ)
  | cellEv (txt : List Char) (b : CellB)
deriving DecidableEq, Repr

/-- The pieces of document state `multi_cell` can touch: the word-spacing
setting, the emitted events (empty = no drawing), the `split_only` return
list, and whether the final `self.x = left_page_margin` assignment ran. -/
structure MCAcc where
  wordSpacing : ℚ
  evs : List MCEv
  ret : List (List Char)
  xReset : Bool
deriving DecidableEq, Repr

/-- The texts of the `cell` calls in an event trace, in order. -/
def cellTexts (evs : List MCEv) : List (List Char) :=
  evs.filterMap (fun e => match e with
    | MCEv.cellEv t _ => some t
    | _ => none)

/-- The justification word spacing (fpdf.py lines 701-705):
`(wmax - ls) / 1000 * font_size / (ns - 1)` when the line saw more than
one space, else zero. -/
def wsJustify (wmax ls fontSize : ℚ) (ns : Nat) : ℚ :=
  if 1 < ns then (wmax - ls) / 1000 * fontSize / ((ns : ℚ) - 1) else 0

/-- `if word_spacing > 0: word_spacing = 0; if not split_only:
out('0 Tw')` - the reset that precedes explicit newlines, forced breaks
and the last chunk. The setting is zeroed in both modes; only the
operator emission is guarded. -/
def wsResetAcc (splitOnly : Bool) (acc : MCAcc) : MCAcc :=
  if acc.wordSpacing > 0 then
    { acc with
      wordSpacing := 0,
      evs := (if splitOnly then acc.evs else acc.evs ++ [MCEv.twOp 0]) }
  else acc

/-- Emit one line: a `cell` call when drawing, a `ret.append` in
`split_only` mode. -/
def emitLine (splitOnly : Bool) (line : List Char) (b : CellB)
    (acc : MCAcc) : MCAcc :=
  if splitOnly then { acc with ret := acc.ret ++ [line] }
  else { acc with evs := acc.evs ++ [MCEv.cellEv line b] }

/-- The last chunk after the loop (fpdf.py lines 722-734): reset a
positive word spacing, add the `B` border flag for the last line, emit
`s[j:nb]`, and (when drawing) reset x to the left margin. -/
def mcFinal (splitOnly : Bool) (s : List Char) (nb : Nat)
    (borderArg : BorderArg) (j : Nat) (b : CellB) (acc : MCAcc) : MCAcc :=
  let acc := wsResetAcc splitOnly acc
  let bFin := borderFinal borderArg
  let b := if borderTruthy bFin ∧ 'B' ∈ borderFlags bFin then appendB b
           else b
  let line := sliceStr s j (nb - j)
  if splitOnly then { acc with ret := acc.ret ++ [line] }
  else { acc with evs := acc.evs ++ [MCEv.cellEv line b], xReset := true }

/-- The line-by-line outer loop of `multi_cell`. Each turn scans one line
from `j`, handles the break kind (explicit newline; forced break; break at
the last space with the justification word-spacing update), emits the
line, advances `j` past the consumed separator, bumps the line counter
`nl` (switching to the `b2` border after the first line), and continues;
the loop ends with the last chunk. `fuel` only drives the structural
recursion: it decreases by one per line while `j` advances by at least
one, so `fuel = nb` from the wrapper is never exhausted early. -/
def mcLoop (cw : Char → ℚ) (wmax scale fontSize : ℚ)
    (justify splitOnly : Bool) (s : List Char) (nb : Nat)
    (bActive : Bool) (borderArg : BorderArg) (b2 : CellB) :
    Nat → Nat → Nat → CellB → MCAcc → MCAcc
  | 0, j, _, b, acc => mcFinal splitOnly s nb borderArg j b acc
  | fuel + 1, j, nl, b, acc =>
      if j < nb then
        match scanLine cw wmax s j (nb - j) 0 none 0 0 0 with
        | LineEnd.nl k =>
            let acc := wsResetAcc splitOnly acc
            let acc := emitLine splitOnly (sliceStr s j k) b acc
            let nl2 := nl + 1
            let bNext := if bActive = true ∧ nl2 = 2 then b2 else b
            mcLoop cw wmax scale fontSize justify splitOnly s nb bActive
              borderArg b2 fuel (j + k + 1) nl2 bNext acc
        | LineEnd.force kp =>
            let acc := wsResetAcc splitOnly acc
            let acc := emitLine splitOnly (sliceStr s j (kp + 1)) b acc
            let nl2 := nl + 1
            let bNext := if bActive = true ∧ nl2 = 2 then b2 else b
            mcLoop cw wmax scale fontSize justify splitOnly s nb bActive
              borderArg b2 fuel (j + kp + 1) nl2 bNext acc
        | LineEnd.sepBreak ksep ls ns =>
            let acc := if justify then
                let ws := wsJustify wmax ls fontSize ns
                { acc with
                  wordSpacing := ws,
                  evs := (if splitOnly then acc.evs
                          else acc.evs ++ [MCEv.twOp (ws * scale)]) }
              else acc
            let acc := emitLine splitOnly (sliceStr s j ksep) b acc
            let nl2 := nl + 1
            let bNext := if bActive = true ∧ nl2 = 2 then b2 else b
            mcLoop cw wmax scale fontSize justify splitOnly s nb bActive
              borderArg b2 fuel (j + ksep + 1) nl2 bNext acc
        | LineEnd.eot _ => mcFinal splitOnly s nb borderArg j b acc
      else mcFinal splitOnly s nb borderArg j b acc

/-- `s = text.replace("\r", '')`. -/
def mcText (text : List Char) : List Char := text.filter (fun c => c ≠ '\r')

/-- `nb = len(s)`, reduced by one when the text ends in a newline. -/
def mcNb (s : List Char) : Nat :=
  if 0 < s.length ∧ s.getD (s.length - 1) ' ' = '\n' then s.length - 1
  else s.length

/-- `if w == 0: w = width_unit - right_page_margin - x`. -/
def mcWidth (widthUnit rightMargin x0 width0 : ℚ) : ℚ :=
  if width0 = 0 then widthUnit - rightMargin - x0 else width0

/-- `wmax = (w - 2 * cell_margin) * 1000.0 / font_size`. -/
def mcWmax (fontSize cellMargin w : ℚ) : ℚ :=
  (w - 2 * cellMargin) * 1000 / fontSize

/-- `FPDF.multi_cell` (text already normalized): resolve the zero-width
default, compute `wmax`, strip carriage returns, drop one trailing
newline, set up the borders, and run the wrap loop from `j = 0` with the
entry word-spacing setting `ws0`. -/
def multi_cell (cw : Char → ℚ)
    (scale fontSize cellMargin widthUnit rightMargin x0 width0 : ℚ)
    (text : List Char) (border : BorderArg) (align : String)
    (splitOnly : Bool) (ws0 : ℚ) : MCAcc :=
  let wmax := mcWmax fontSize cellMargin
    (mcWidth widthUnit rightMargin x0 width0)
  let s := mcText text
  let nb := mcNb s
  let bb := borderSetup border
  mcLoop cw wmax scale fontSize (align == "J") splitOnly s nb
    (borderTruthy border) border bb.2 nb 0 1 bb.1
    { wordSpacing := ws0, evs := [], ret := [], xReset := false }

theorem sliceStr_zero (s : List Char) (j : Nat) : sliceStr s j 0 = [] := rfl

theorem sliceStr_succ (s : List Char) (j k : Nat) (h : j + k < s.length) :
    sliceStr s j (k + 1) = sliceStr s j k ++ [s.getD (j + k) ' '] := by
  unfold sliceStr
  rw [List.take_succ]
  congr 1
  have hlt : k < (s.drop j).length := by
    rw [List.length_drop]; omega
  rw [List.getElem?_drop]
  rw [List.getD_eq_getElem?_getD]
  rw [List.getElem?_eq_getElem h]
  rfl

theorem lineWidth_append (cw : Char → ℚ) (xs : List Char) (c : Char) :
    lineWidth cw (xs ++ [c]) = lineWidth cw xs + cw c := by
  simp [lineWidth]

theorem countSp_append (xs : List Char) (c : Char) :
    countSp (xs ++ [c]) = countSp xs + (if c = ' ' then 1 else 0) := by
  by_cases h : c = ' ' <;> simp [countSp, List.countP_append, h]

/-- Invariant of the inner scan: on reaching a break at the recorded
space, the recorded width `ls` is exactly the width of the emitted slice
`s[j : j + ksep]`, the space count `ns` is the number of spaces in
`s[j : j + ksep + 1]` (the emitted line plus the break space), and `ls`
never exceeds `wmax`. -/
theorem scanLine_sep_spec (cw : Char → ℚ) (wmax : ℚ) (s : List Char)
    (j : Nat) :
    ∀ rem k sep ls ns l,
      j + k + rem ≤ s.length →
      l = lineWidth cw (sliceStr s j k) →
      ns = countSp (sliceStr s j k) →
      (∀ ks, sep = some ks → ks < k ∧
        ls = lineWidth cw (sliceStr s j ks) ∧
        countSp (sliceStr s j (ks + 1)) = countSp (sliceStr s j k) ∧
        (0 ≤ wmax → ls ≤ wmax)) →
      (0 ≤ wmax → l ≤ wmax) →
      ∀ ksep ls2 ns2,
        scanLine cw wmax s j rem k sep ls ns l =
          LineEnd.sepBreak ksep ls2 ns2 →
        ls2 = lineWidth cw (sliceStr s j ksep) ∧
        ns2 = countSp (sliceStr s j (ksep + 1)) ∧
        (0 ≤ wmax → ls2 ≤ wmax) := by
  intro rem
  induction rem with
  | zero =>
      intro k sep ls ns l _ _ _ _ _ ksep ls2 ns2 hres
      simp [scanLine] at hres
  | succ rem ih =>
      intro k sep ls ns l hb hl hns hsep hlw ksep ls2 ns2 hres
      have hklen : j + k < s.length := by omega
      rw [scanLine] at hres
      by_cases hc : s.getD (j + k) ' ' = '\n'
      · simp only [hc, if_pos, if_true] at hres
        exact absurd hres (by simp)
      · simp only [if_neg hc] at hres
        by_cases hsp : s.getD (j + k) ' ' = ' '
        · simp only [hsp, if_pos, if_true] at hres
          by_cases hov : l + cw ' ' > wmax
          · rw [if_pos hov] at hres
            obtain ⟨hk, hls, hns2⟩ := LineEnd.sepBreak.inj hres
            refine ⟨by rw [← hls, ← hk, hl], ?_, fun hwm => by
              rw [← hls]; exact hlw hwm⟩
            rw [← hns2, ← hk, hns,
              sliceStr_succ s j k hklen, countSp_append, if_pos hsp]
          · rw [if_neg hov] at hres
            refine ih (k + 1) (some k) l (ns + 1) (l + cw ' ')
              (by omega) ?_ ?_ ?_ ?_ ksep ls2 ns2 hres
            · rw [sliceStr_succ s j k hklen, lineWidth_append, hl, hsp]
            · rw [sliceStr_succ s j k hklen, countSp_append, if_pos hsp, hns]
            · intro ks hks
              obtain rfl : k = ks := by injection hks
              exact ⟨Nat.lt_succ_self k, hl, rfl, hlw⟩
            · intro _; exact le_of_not_lt hov
        · simp only [hsp, if_neg, ite_false] at hres
          by_cases hov : l + cw (s.getD (j + k) ' ') > wmax
          · rw [if_pos hov] at hres
            cases hse : sep with
            | none => rw [hse] at hres; exact absurd hres (by simp)
            | some ks =>
                rw [hse] at hres
                obtain ⟨hk, hls, hns2⟩ := LineEnd.sepBreak.inj hres
                obtain ⟨hkk, hlsv, hcnt, hlsw⟩ := hsep ks hse
                refine ⟨by rw [← hls, ← hk, hlsv], ?_, fun hwm => by
                  rw [← hls]; exact hlsw hwm⟩
                rw [← hns2, ← hk, hns, hcnt]
          · rw [if_neg hov] at hres
            refine ih (k + 1) sep ls ns (l + cw (s.getD (j + k) ' '))
              (by omega) ?_ ?_ ?_ ?_ ksep ls2 ns2 hres
            · rw [sliceStr_succ s j k hklen, lineWidth_append, hl]
            · rw [sliceStr_succ s j k hklen, countSp_append, if_neg hsp,
                hns, Nat.add_zero]
            · intro ks hks
              obtain ⟨hkk, hlsv, hcnt, hlsw⟩ := hsep ks hks
              refine ⟨Nat.lt_succ_of_lt hkk, hlsv, ?_, hlsw⟩
              rw [hcnt, sliceStr_succ s j k hklen, countSp_append,
                if_neg hsp, Nat.add_zero]
            · intro _; exact le_of_not_lt hov

/-- **C4.** When `multi_cell` with align Justify breaks a line at the last
seen space and the line saw more than one space (`ns > 1`, the break space
included), the computed word spacing
`(wmax - ls)/1000 * fontSize / (ns - 1)` makes the line's glyph widths
plus `(ns - 1)` word-spacing gaps sum exactly (in exact rational
arithmetic; the source computes in floats) to the wrap width
`width - 2 * cellMargin`; with at most one space the word spacing is
zero. -/
theorem multi_cell_justify_fills_width
    (cw : Char → ℚ) (s : List Char) (nb j : Nat)
    (fontSize width cellMargin : ℚ) (ksep : Nat) (ls : ℚ) (ns : Nat)
    (hnb : nb ≤ s.length) (hj : j ≤ nb) (hfs : fontSize ≠ 0)
    (hscan : scanLine cw ((width - 2 * cellMargin) * 1000 / fontSize) s j
      (nb - j) 0 none 0 0 0 = LineEnd.sepBreak ksep ls ns) :
    (1 < ns →
      lineWidth cw (sliceStr s j ksep) / 1000 * fontSize +
        ((ns : ℚ) - 1) *
          wsJustify ((width - 2 * cellMargin) * 1000 / fontSize) ls
            fontSize ns =
        width - 2 * cellMargin) ∧
    (¬ 1 < ns →
      wsJustify ((width - 2 * cellMargin) * 1000 / fontSize) ls fontSize ns
        = 0) := by
  have hspec := scanLine_sep_spec cw
    ((width - 2 * cellMargin) * 1000 / fontSize) s j (nb - j) 0 none 0 0 0
    (by omega) (by rw [sliceStr_zero]; rfl) (by rw [sliceStr_zero]; rfl)
    (by intro ks hks; exact absurd hks (by simp))
    (fun h => h) ksep ls ns hscan
  obtain ⟨hls, hns, -⟩ := hspec
  constructor
  · intro hns1
    have hcast : (1 : ℚ) < (ns : ℚ) := by exact_mod_cast hns1
    have hne : (ns : ℚ) - 1 ≠ 0 := by
      intro h
      rw [sub_eq_zero] at h
      rw [← h] at hcast
      exact lt_irrefl _ hcast
    rw [wsJustify, if_pos hns1, ← hls]
    field_simp
    ring
  · intro hns1
    rw [wsJustify, if_neg hns1]

/-- **C4 witness.** Seven characters of width 100 wrapped at
`wmax = 600`: the scan breaks at the second space (offset 5) with
`ls = 500`, `ns = 2`, and `500/1000·1000 + (2-1)·ws = 600`. -/
theorem multi_cell_justify_fills_width_witness :
    scanLine (fun _ => (100 : ℚ)) ((600 - 2 * 0) * 1000 / 1000)
      ['a', 'b', ' ', 'c', 'd', ' ', 'e'] 0 (7 - 0) 0 none 0 0 0 =
      LineEnd.sepBreak 5 500 2 ∧
    lineWidth (fun _ => (100 : ℚ))
        (sliceStr ['a', 'b', ' ', 'c', 'd', ' ', 'e'] 0 5) / 1000 * 1000 +
      ((2 : ℚ) - 1) *
        wsJustify ((600 - 2 * 0) * 1000 / 1000) 500 1000 2 =
      600 - 2 * 0 := by
  have hscan : scanLine (fun _ => (100 : ℚ)) ((600 - 2 * 0) * 1000 / 1000)
      ['a', 'b', ' ', 'c', 'd', ' ', 'e'] 0 (7 - 0) 0 none 0 0 0 =
      LineEnd.sepBreak 5 500 2 := by
    simp +decide [scanLine]
    norm_num
  exact ⟨hscan,
    (multi_cell_justify_fills_width (fun _ => (100 : ℚ))
      ['a', 'b', ' ', 'c', 'd', ' ', 'e'] 7 0 1000 600 0 5 500 2
      (by decide) (by decide) (by norm_num) hscan).1 (by norm_num)⟩

/-- The last chunk in the two modes: from the same word-spacing setting,
`split_only` collects exactly the line the drawing mode would hand to
`cell`, emits nothing, leaves `x` alone, and both modes end with word
spacing 0. -/
theorem mcFinal_modes (s : List Char) (nb : Nat) (borderArg : BorderArg)
    (j : Nat) (b : CellB) (ws : ℚ) (evsS evsN : List MCEv)
    (retS retN : List (List Char)) (xs xn : Bool) (hws : 0 ≤ ws) :
    ∃ L E, cellTexts E = L ∧
      mcFinal true s nb borderArg j b ⟨ws, evsS, retS, xs⟩ =
        ⟨0, evsS, retS ++ L, xs⟩ ∧
      mcFinal false s nb borderArg j b ⟨ws, evsN, retN, xn⟩ =
        ⟨0, evsN ++ E, retN, true⟩ := by
  refine ⟨[sliceStr s j (nb - j)],
    (if ws > 0 then [MCEv.twOp 0] else []) ++
      [MCEv.cellEv (sliceStr s j (nb - j))
        (if borderTruthy (borderFinal borderArg) = true ∧
            'B' ∈ borderFlags (borderFinal borderArg) then appendB b
         else b)], ?_, ?_, ?_⟩
  · by_cases h : ws > 0 <;> simp [cellTexts, h]
  · by_cases h : ws > 0
    · simp [mcFinal, wsResetAcc, h]
    · have h0 : ws = 0 := le_antisymm (not_lt.mp h) hws
      simp [mcFinal, wsResetAcc, h, h0]
  · by_cases h : ws > 0
    · simp [mcFinal, wsResetAcc, h]
    · have h0 : ws = 0 := le_antisymm (not_lt.mp h) hws
      simp [mcFinal, wsResetAcc, h, h0]

/-- The wrap loop in the two modes: from the same initial state, the
`split_only` run emits no event, never touches `x`, ends with word spacing
0, and returns exactly the list of line texts that the drawing run hands
to `cell`, in order. -/
theorem mcLoop_modes (cw : Char → ℚ) (wmax scale fontSize : ℚ)
    (justify : Bool) (s : List Char) (nb : Nat) (bActive : Bool)
    (borderArg : BorderArg) (b2 : CellB)
    (hnb : nb ≤ s.length) (hwm : 0 ≤ wmax) (hfs : 0 ≤ fontSize) :
    ∀ fuel j nl b ws evsS retS xs evsN retN xn, 0 ≤ ws →
      ∃ L E, cellTexts E = L ∧
        mcLoop cw wmax scale fontSize justify true s nb bActive borderArg b2
          fuel j nl b ⟨ws, evsS, retS, xs⟩ = ⟨0, evsS, retS ++ L, xs⟩ ∧
        mcLoop cw wmax scale fontSize justify false s nb bActive borderArg b2
          fuel j nl b ⟨ws, evsN, retN, xn⟩ = ⟨0, evsN ++ E, retN, true⟩ := by
  intro fuel
  induction fuel with
  | zero =>
      intro j nl b ws evsS retS xs evsN retN xn hws
      simpa only [mcLoop] using
        mcFinal_modes s nb borderArg j b ws evsS evsN retS retN xs xn hws
  | succ fuel ih =>
      intro j nl b ws evsS retS xs evsN retN xn hws
      by_cases hj : j < nb
      · cases hsc : scanLine cw wmax s j (nb - j) 0 none 0 0 0 with
        | nl k =>
            by_cases hws2 : ws > 0
            · obtain ⟨L, E, hLE, hS, hN⟩ := ih (j + k + 1) (nl + 1)
                (if bActive = true ∧ nl + 1 = 2 then b2 else b) 0 evsS
                (retS ++ [sliceStr s j k]) xs
                ((evsN ++ [MCEv.twOp 0]) ++ [MCEv.cellEv (sliceStr s j k) b])
                retN xn le_rfl
              refine ⟨[sliceStr s j k] ++ L,
                [MCEv.twOp 0] ++ [MCEv.cellEv (sliceStr s j k) b] ++ E,
                ?_, ?_, ?_⟩
              · simp [cellTexts] at hLE ⊢
                exact hLE
              · simp only [mcLoop, hj, hsc, wsResetAcc, emitLine, hws2,
                  eq_self_iff_true, if_true, ite_true, Bool.false_eq_true,
                  if_false, ite_false]
                rw [hS]
                simp [List.append_assoc]
              · simp only [mcLoop, hj, hsc, wsResetAcc, emitLine, hws2,
                  eq_self_iff_true, if_true, ite_true, Bool.false_eq_true,
                  if_false, ite_false]
                rw [hN]
                simp [List.append_assoc]
            · obtain ⟨L, E, hLE, hS, hN⟩ := ih (j + k + 1) (nl + 1)
                (if bActive = true ∧ nl + 1 = 2 then b2 else b) ws evsS
                (retS ++ [sliceStr s j k]) xs
                (evsN ++ [MCEv.cellEv (sliceStr s j k) b]) retN xn hws
              refine ⟨[sliceStr s j k] ++ L,
                [MCEv.cellEv (sliceStr s j k) b] ++ E, ?_, ?_, ?_⟩
              · simp [cellTexts] at hLE ⊢
                exact hLE
              · simp only [mcLoop, hj, hsc, wsResetAcc, emitLine, hws2,
                  eq_self_iff_true, if_true, ite_true, Bool.false_eq_true,
                  if_false, ite_false]
                rw [hS]
                simp [List.append_assoc]
              · simp only [mcLoop, hj, hsc, wsResetAcc, emitLine, hws2,
                  eq_self_iff_true, if_true, ite_true, Bool.false_eq_true,
                  if_false, ite_false]
                rw [hN]
                simp [List.append_assoc]
        | force kp =>
            by_cases hws2 : ws > 0
            · obtain ⟨L, E, hLE, hS, hN⟩ := ih (j + kp + 1) (nl + 1)
                (if bActive = true ∧ nl + 1 = 2 then b2 else b) 0 evsS
                (retS ++ [sliceStr s j (kp + 1)]) xs
                ((evsN ++ [MCEv.twOp 0]) ++
                  [MCEv.cellEv (sliceStr s j (kp + 1)) b]) retN xn le_rfl
              refine ⟨[sliceStr s j (kp + 1)] ++ L,
                [MCEv.twOp 0] ++ [MCEv.cellEv (sliceStr s j (kp + 1)) b] ++ E,
                ?_, ?_, ?_⟩
              · simp [cellTexts] at hLE ⊢
                exact hLE
              · simp only [mcLoop, hj, hsc, wsResetAcc, emitLine, hws2,
                  eq_self_iff_true, if_true, ite_true, Bool.false_eq_true,
                  if_false, ite_false]
                rw [hS]
                simp [List.append_assoc]
              · simp only [mcLoop, hj, hsc, wsResetAcc, emitLine, hws2,
                  eq_self_iff_true, if_true, ite_true, Bool.false_eq_true,
                  if_false, ite_false]
                rw [hN]
                simp [List.append_assoc]
            · obtain ⟨L, E, hLE, hS, hN⟩ := ih (j + kp + 1) (nl + 1)
                (if bActive = true ∧ nl + 1 = 2 then b2 else b) ws evsS
                (retS ++ [sliceStr s j (kp + 1)]) xs
                (evsN ++ [MCEv.cellEv (sliceStr s j (kp + 1)) b]) retN xn hws
              refine ⟨[sliceStr s j (kp + 1)] ++ L,
                [MCEv.cellEv (sliceStr s j (kp + 1)) b] ++ E, ?_, ?_, ?_⟩
              · simp [cellTexts] at hLE ⊢
                exact hLE
              · simp only [mcLoop, hj, hsc, wsResetAcc, emitLine, hws2,
                  eq_self_iff_true, if_true, ite_true, Bool.false_eq_true,
                  if_false, ite_false]
                rw [hS]
                simp [List.append_assoc]
              · simp only [mcLoop, hj, hsc, wsResetAcc, emitLine, hws2,
                  eq_self_iff_true, if_true, ite_true, Bool.false_eq_true,
                  if_false, ite_false]
                rw [hN]
                simp [List.append_assoc]
        | sepBreak ksep ls ns =>
            have hspec := scanLine_sep_spec cw wmax s j (nb - j) 0 none 0 0 0
              (by omega) (by rw [sliceStr_zero]; rfl)
              (by rw [sliceStr_zero]; rfl)
              (by intro ks hks; exact absurd hks (by simp))
              (fun _ => hwm) ksep ls ns hsc
            have hls : ls ≤ wmax := hspec.2.2 hwm
            have hwj : 0 ≤ wsJustify wmax ls fontSize ns := by
              unfold wsJustify
              by_cases hn : 1 < ns
              · rw [if_pos hn]
                have h1 : (1 : ℚ) ≤ (ns : ℚ) - 1 := by
                  have h2 : (2 : ℚ) ≤ (ns : ℚ) := by exact_mod_cast hn
                  linarith
                apply div_nonneg
                · apply mul_nonneg _ hfs
                  apply div_nonneg (by linarith) (by norm_num)
                · linarith
              · rw [if_neg hn]
            cases justify with
            | true =>
                obtain ⟨L, E, hLE, hS, hN⟩ := ih (j + ksep + 1) (nl + 1)
                  (if bActive = true ∧ nl + 1 = 2 then b2 else b)
                  (wsJustify wmax ls fontSize ns) evsS
                  (retS ++ [sliceStr s j ksep]) xs
                  ((evsN ++
                    [MCEv.twOp (wsJustify wmax ls fontSize ns * scale)]) ++
                    [MCEv.cellEv (sliceStr s j ksep) b]) retN xn hwj
                refine ⟨[sliceStr s j ksep] ++ L,
                  [MCEv.twOp (wsJustify wmax ls fontSize ns * scale)] ++
                    [MCEv.cellEv (sliceStr s j ksep) b] ++ E, ?_, ?_, ?_⟩
                · simp [cellTexts] at hLE ⊢
                  exact hLE
                · simp only [mcLoop, hj, hsc, emitLine, eq_self_iff_true,
                    if_true, ite_true, Bool.false_eq_true, if_false,
                    ite_false]
                  rw [hS]
                  simp [List.append_assoc]
                · simp only [mcLoop, hj, hsc, emitLine, eq_self_iff_true,
                    if_true, ite_true, Bool.false_eq_true, if_false,
                    ite_false]
                  rw [hN]
                  simp [List.append_assoc]
            | false =>
                obtain ⟨L, E, hLE, hS, hN⟩ := ih (j + ksep + 1) (nl + 1)
                  (if bActive = true ∧ nl + 1 = 2 then b2 else b) ws evsS
                  (retS ++ [sliceStr s j ksep]) xs
                  (evsN ++ [MCEv.cellEv (sliceStr s j ksep) b]) retN xn hws
                refine ⟨[sliceStr s j ksep] ++ L,
                  [MCEv.cellEv (sliceStr s j ksep) b] ++ E, ?_, ?_, ?_⟩
                · simp [cellTexts] at hLE ⊢
                  exact hLE
                · simp only [mcLoop, hj, hsc, emitLine, eq_self_iff_true,
                    if_true, ite_true, Bool.false_eq_true, if_false,
                    ite_false]
                  rw [hS]
                  simp [List.append_assoc]
                · simp only [mcLoop, hj, hsc, emitLine, eq_self_iff_true,
                    if_true, ite_true, Bool.false_eq_true, if_false,
                    ite_false]
                  rw [hN]
                  simp [List.append_assoc]
        | eot k =>
            obtain ⟨L, E, hLE, hS, hN⟩ :=
              mcFinal_modes s nb borderArg j b ws evsS evsN retS retN xs xn
                hws
            refine ⟨L, E, hLE, ?_, ?_⟩
            · simp only [mcLoop, hj, hsc, eq_self_iff_true, if_true,
                ite_true]
              exact hS
            · simp only [mcLoop, hj, hsc, eq_self_iff_true, if_true,
                ite_true]
              exact hN
      · have hfin := mcFinal_modes s nb borderArg j b ws evsS evsN retS retN
          xs xn hws
        obtain ⟨L, E, hLE, hS, hN⟩ := hfin
        refine ⟨L, E, hLE, ?_, ?_⟩
        · simp only [mcLoop, hj, if_false, ite_false]
          exact hS
        · simp only [mcLoop, hj, if_false, ite_false]
          exact hN

/-- **C6.** For every input text, `multi_cell` in `split_only` mode emits
no content-stream operator and no `cell` call, does not touch the cursor,
and (from the normal zero word-spacing setting) leaves the word-spacing
setting at zero, returning exactly the ordered list of line substrings
that the drawing mode would hand to `cell`. -/
theorem multi_cell_split_only_pure (cw : Char → ℚ)
    (scale fontSize cellMargin widthUnit rightMargin x0 width0 : ℚ)
    (text : List Char) (border : BorderArg) (align : String)
    (hfs : 0 ≤ fontSize)
    (hwm : 0 ≤ mcWmax fontSize cellMargin
      (mcWidth widthUnit rightMargin x0 width0)) :
    (multi_cell cw scale fontSize cellMargin widthUnit rightMargin x0
        width0 text border align true 0).evs = [] ∧
    (multi_cell cw scale fontSize cellMargin widthUnit rightMargin x0
        width0 text border align true 0).xReset = false ∧
    (multi_cell cw scale fontSize cellMargin widthUnit rightMargin x0
        width0 text border align true 0).wordSpacing = 0 ∧
    (multi_cell cw scale fontSize cellMargin widthUnit rightMargin x0
        width0 text border align true 0).ret =
      cellTexts (multi_cell cw scale fontSize cellMargin widthUnit
        rightMargin x0 width0 text border align false 0).evs := by
  have hnb : mcNb (mcText text) ≤ (mcText text).length := by
    unfold mcNb
    split <;> omega
  obtain ⟨L, E, hLE, hS, hN⟩ := mcLoop_modes cw
    (mcWmax fontSize cellMargin (mcWidth widthUnit rightMargin x0 width0))
    scale fontSize (align == "J") (mcText text) (mcNb (mcText text))
    (borderTruthy border) border (borderSetup border).2 hnb hwm hfs
    (mcNb (mcText text)) 0 1 (borderSetup border).1 0 [] [] false [] []
    false le_rfl
  simp only [multi_cell]
  rw [hS, hN]
  simp [hLE]

/-- **C6 witness.** The concrete wrap of the C4 witness: the hypotheses of
the frame theorem hold at font size 1000, width 600, zero cell margin. -/
theorem multi_cell_split_only_pure_witness :
    (multi_cell (fun _ => (100 : ℚ)) 1 1000 0 0 0 0 600
        ['a', 'b', ' ', 'c', 'd', ' ', 'e'] (BorderArg.intB 0) "J"
        true 0).evs = [] ∧
    (multi_cell (fun _ => (100 : ℚ)) 1 1000 0 0 0 0 600
        ['a', 'b', ' ', 'c', 'd', ' ', 'e'] (BorderArg.intB 0) "J"
        true 0).ret =
      cellTexts (multi_cell (fun _ => (100 : ℚ)) 1 1000 0 0 0 0 600
        ['a', 'b', ' ', 'c', 'd', ' ', 'e'] (BorderArg.intB 0) "J"
        false 0).evs := by
  have h := multi_cell_split_only_pure (fun _ => (100 : ℚ)) 1 1000 0 0 0 0
    600 ['a', 'b', ' ', 'c', 'd', ' ', 'e'] (BorderArg.intB 0) "J"
    (by norm_num) (by norm_num [mcWmax, mcWidth])
  exact ⟨h.1, h.2.2.2⟩

/-! ## Object serializer and cross-reference offsets
(`FPDF._enddoc` lines 1494-1525, `FPDF._newobj` lines 1572-1578,
`FPDF._putpages` lines 984-1064, `FPDF._putresources` lines 1442-1451)

During `_enddoc` the document is OPEN_IDLE, so every `_out(s)` appends
`s + "\n"` to `self.buffer`; the buffer is modelled as a list of
characters and offsets as the association list `objectNumber ↦ byte
offset` in recording order. Objects are opened either by `_newobj`
(`n += 1; offsets[n] = len(buffer); out(f"{n} 0 obj")`) or, for the two
reserved objects, by the explicit `offsets[i] = len(buffer);
out(f"{i} 0 obj")` blocks of `_putpages` (pages root, object 1) and
`_putresources` (resource dictionary, object 2). -/

/-- Serializer state: object counter `n` (starts at 2), output buffer,
recorded offsets. -/
structure SState where
  n : Nat
  buffer : List Char
  offsets : List (Nat × Nat)
deriving DecidableEq, Repr

/-- `_out(s)` in a non-WRITING_PAGE state: append `s` and a newline. -/
def outLine (st : SState) (s : List Char) : SState :=
  { st with buffer := st.buffer ++ s ++ ['\n'] }

/-- The begin token `f"{i} 0 obj"` of indirect object `i`. -/
def beginTok (i : Nat) : List Char := (toString i).toList ++ " 0 obj".toList

/-- One serializer-level emission: a raw `_out` line, a `_newobj` block
(begin token, body lines, `endobj`), or a reserved-object block that
records the offset under a fixed number without touching `n`. -/
inductive EmitOp where
  | raw (s : List Char)
  | newobj (body : List (List Char))
  | reserved (i : Nat) (body : List (List Char))

/-- Emit the body lines of an object. -/
def runBody (st : SState) (body : List (List Char)) : SState :=
  body.foldl outLine st

/-- Entry bookkeeping of `_newobj`: `self.n += 1;
self.offsets[self.n] = len(self.buffer)`. -/
def newobjPre (st : SState) : SState :=
  { st with
    n := st.n + 1,
    offsets := st.offsets ++ [(st.n + 1, st.buffer.length)] }

/-- Bookkeeping of the reserved objects 1 and 2:
`self.offsets[i] = len(self.buffer)` without incrementing `n`
(fpdf.py lines 1054 and 1446). -/
def reservedPre (st : SState) (i : Nat) : SState :=
  { st with offsets := st.offsets ++ [(i, st.buffer.length)] }

/-- Run one emission op. -/
def runOp (st : SState) : EmitOp → SState
  | EmitOp.raw s => outLine st s
  | EmitOp.newobj body =>
      outLine (runBody (outLine (newobjPre st) (beginTok (st.n + 1))) body)
        "endobj".toList
  | EmitOp.reserved i body =>
      outLine (runBody (outLine (reservedPre st i) (beginTok i)) body)
        "endobj".toList

/-- Run a whole emission program. -/
def runProg (st : SState) (p : List EmitOp) : SState := p.foldl runOp st

/-- The offsets an op records. -/
def opOffsets (st : SState) : EmitOp → List (Nat × Nat)
  | EmitOp.raw _ => []
  | EmitOp.newobj _ => [(st.n + 1, st.buffer.length)]
  | EmitOp.reserved i _ => [(i, st.buffer.length)]

/-- How many object numbers an op allocates. -/
def opCount : EmitOp → Nat
  | EmitOp.newobj _ => 1
  | _ => 0

/-- The emission program of `_enddoc`, in the source's order: the
`%PDF-` header; per page a page dictionary and a content stream (both via
`_newobj`); the reserved pages root (object 1); the font objects and the
image objects (`_putfonts`/`_putimages`, all via `_newobj`); the reserved
resource dictionary (object 2); the info and catalog objects; and the
xref/trailer lines, each object body abstracted to its lines. -/
def enddocProg (headerLine : List Char)
    (pages : List (List (List Char) × List (List Char)))
    (pagesRootBody : List (List Char))
    (fontBodies imageBodies : List (List (List Char)))
    (resourceBody infoBody catalogBody : List (List Char))
    (xrefLines : List (List Char)) : List EmitOp :=
  [EmitOp.raw headerLine]
    ++ pages.flatMap (fun pg => [EmitOp.newobj pg.1, EmitOp.newobj pg.2])
    ++ [EmitOp.reserved 1 pagesRootBody]
    ++ fontBodies.map EmitOp.newobj
    ++ imageBodies.map EmitOp.newobj
    ++ [EmitOp.reserved 2 resourceBody]
    ++ [EmitOp.newobj infoBody, EmitOp.newobj catalogBody]
    ++ xrefLines.map EmitOp.raw

/-- A recorded offset is valid for a buffer when the object's begin token
starts at exactly that byte position. -/
def offsetValid (buffer : List Char) (pr : Nat × Nat) : Prop :=
  ∃ pre rest, buffer = pre ++ beginTok pr.1 ++ rest ∧ pre.length = pr.2

/-- The fresh document state handed to `_enddoc`: `n = 2`, empty buffer,
no offsets. -/
def initSState : SState := { n := 2, buffer := [], offsets := [] }

theorem outLine_offsets (st : SState) (s : List Char) :
    (outLine st s).offsets = st.offsets := rfl

theorem outLine_buffer (st : SState) (s : List Char) :
    (outLine st s).buffer = st.buffer ++ (s ++ ['\n']) := by
  show st.buffer ++ s ++ ['\n'] = _
  rw [List.append_assoc]

theorem outLine_n (st : SState) (s : List Char) : (outLine st s).n = st.n :=
  rfl

theorem runBody_offsets (body : List (List Char)) (st : SState) :
    (runBody st body).offsets = st.offsets := by
  induction body generalizing st with
  | nil => rfl
  | cons x xs ih => exact ih (outLine st x)

theorem runBody_n (body : List (List Char)) (st : SState) :
    (runBody st body).n = st.n := by
  induction body generalizing st with
  | nil => rfl
  | cons x xs ih => exact ih (outLine st x)

theorem runBody_buffer_prefix (body : List (List Char)) (st : SState) :
    ∃ t, (runBody st body).buffer = st.buffer ++ t := by
  induction body generalizing st with
  | nil => exact ⟨[], by simp [runBody]⟩
  | cons x xs ih =>
      obtain ⟨t, ht⟩ := ih (outLine st x)
      refine ⟨(x ++ ['\n']) ++ t, ?_⟩
      show (runBody (outLine st x) xs).buffer = _
      rw [ht, outLine_buffer, List.append_assoc]

theorem runOp_offsets (st : SState) (op : EmitOp) :
    (runOp st op).offsets = st.offsets ++ opOffsets st op := by
  cases op with
  | raw s =>
      show (outLine st s).offsets = _
      rw [outLine_offsets]
      simp [opOffsets]
  | newobj body =>
      show (outLine (runBody _ body) _).offsets = _
      rw [outLine_offsets, runBody_offsets, outLine_offsets]
      rfl
  | reserved i body =>
      show (outLine (runBody _ body) _).offsets = _
      rw [outLine_offsets, runBody_offsets, outLine_offsets]
      rfl

theorem runOp_n (st : SState) (op : EmitOp) :
    (runOp st op).n = st.n + opCount op := by
  cases op with
  | raw s => rfl
  | newobj body =>
      show (outLine (runBody _ body) _).n = _
      rw [outLine_n, runBody_n, outLine_n]
      rfl
  | reserved i body =>
      show (outLine (runBody _ body) _).n = _
      rw [outLine_n, runBody_n, outLine_n]
      rfl

theorem runOp_buffer_prefix (st : SState) (op : EmitOp) :
    ∃ t, (runOp st op).buffer = st.buffer ++ t := by
  cases op with
  | raw s => exact ⟨s ++ ['\n'], outLine_buffer st s⟩
  | newobj body =>
      obtain ⟨t, ht⟩ := runBody_buffer_prefix body
        (outLine (newobjPre st) (beginTok (st.n + 1)))
      refine ⟨(beginTok (st.n + 1) ++ ['\n']) ++ t ++
        ("endobj".toList ++ ['\n']), ?_⟩
      show (outLine (runBody _ body) _).buffer = _
      rw [outLine_buffer, ht, outLine_buffer]
      show st.buffer ++ _ ++ _ ++ _ = _
      simp [List.append_assoc]
  | reserved i body =>
      obtain ⟨t, ht⟩ := runBody_buffer_prefix body
        (outLine (reservedPre st i) (beginTok i))
      refine ⟨(beginTok i ++ ['\n']) ++ t ++ ("endobj".toList ++ ['\n']),
        ?_⟩
      show (outLine (runBody _ body) _).buffer = _
      rw [outLine_buffer, ht, outLine_buffer]
      show st.buffer ++ _ ++ _ ++ _ = _
      simp [List.append_assoc]

theorem offsetValid_append (buffer t : List Char) (pr : Nat × Nat)
    (h : offsetValid buffer pr) : offsetValid (buffer ++ t) pr := by
  obtain ⟨pre, rest, hb, hl⟩ := h
  exact ⟨pre, rest ++ t, by rw [hb]; simp [List.append_assoc], hl⟩

/-- Each op records only offsets that point at the begin token it writes,
and appending output keeps previously recorded offsets valid. -/
theorem runOp_offsets_valid (op : EmitOp) (st : SState)
    (h : ∀ pr ∈ st.offsets, offsetValid st.buffer pr) :
    ∀ pr ∈ (runOp st op).offsets, offsetValid (runOp st op).buffer pr := by
  intro pr hpr
  rw [runOp_offsets] at hpr
  obtain ⟨t, ht⟩ := runOp_buffer_prefix st op
  rcases List.mem_append.mp hpr with hmem | hmem
  · rw [ht]
    exact offsetValid_append _ _ _ (h pr hmem)
  · cases op with
    | raw s => simp [opOffsets] at hmem
    | newobj body =>
        have hpr2 : pr = (st.n + 1, st.buffer.length) := by
          simpa [opOffsets] using hmem
        subst hpr2
        obtain ⟨t2, ht2⟩ := runBody_buffer_prefix body
          (outLine (newobjPre st) (beginTok (st.n + 1)))
        refine ⟨st.buffer, ['\n'] ++ t2 ++ ("endobj".toList ++ ['\n']),
          ?_, rfl⟩
        show (outLine (runBody _ body) _).buffer = _
        rw [outLine_buffer, ht2, outLine_buffer]
        show st.buffer ++ _ ++ _ ++ _ = _
        simp [List.append_assoc]
    | reserved i body =>
        have hpr2 : pr = (i, st.buffer.length) := by
          simpa [opOffsets] using hmem
        subst hpr2
        obtain ⟨t2, ht2⟩ := runBody_buffer_prefix body
          (outLine (reservedPre st i) (beginTok i))
        refine ⟨st.buffer, ['\n'] ++ t2 ++ ("endobj".toList ++ ['\n']),
          ?_, rfl⟩
        show (outLine (runBody _ body) _).buffer = _
        rw [outLine_buffer, ht2, outLine_buffer]
        show st.buffer ++ _ ++ _ ++ _ = _
        simp [List.append_assoc]

theorem runProg_offsets_valid (p : List EmitOp) (st : SState)
    (h : ∀ pr ∈ st.offsets, offsetValid st.buffer pr) :
    ∀ pr ∈ (runProg st p).offsets, offsetValid (runProg st p).buffer pr := by
  induction p generalizing st with
  | nil => exact h
  | cons op rest ih => exact ih (runOp st op) (runOp_offsets_valid op st h)

theorem runProg_n (p : List EmitOp) (st : SState) :
    (runProg st p).n = st.n + (p.map opCount).sum := by
  induction p generalizing st with
  | nil => simp [runProg]
  | cons op rest ih =>
      show (runProg (runOp st op) rest).n = _
      rw [ih (runOp st op), runOp_n]
      simp [Nat.add_assoc]

theorem runProg_offsets_mono (p : List EmitOp) (st : SState)
    (pr : Nat × Nat) (h : pr ∈ st.offsets) :
    pr ∈ (runProg st p).offsets := by
  induction p generalizing st with
  | nil => exact h
  | cons op rest ih =>
      refine ih (runOp st op) ?_
      rw [runOp_offsets]
      exact List.mem_append_left _ h

/-- Every object number allocated by the `_newobj` calls of a program gets
an offset entry. -/
theorem runProg_alloc_mem (p : List EmitOp) :
    ∀ st i, st.n < i → i ≤ st.n + (p.map opCount).sum →
      ∃ off, (i, off) ∈ (runProg st p).offsets := by
  induction p with
  | nil =>
      intro st i h1 h2
      simp at h2
      omega
  | cons op rest ih =>
      intro st i h1 h2
      cases op with
      | raw s =>
          obtain ⟨off, hoff⟩ := ih (runOp st (EmitOp.raw s)) i
            (by rw [runOp_n]; simpa [opCount] using h1)
            (by rw [runOp_n]; simpa [opCount, List.map_cons] using h2)
          exact ⟨off, hoff⟩
      | reserved r body =>
          obtain ⟨off, hoff⟩ := ih (runOp st (EmitOp.reserved r body)) i
            (by rw [runOp_n]; simpa [opCount] using h1)
            (by rw [runOp_n]; simpa [opCount, List.map_cons] using h2)
          exact ⟨off, hoff⟩
      | newobj body =>
          by_cases hi : i = st.n + 1
          · subst hi
            refine ⟨st.buffer.length,
              runProg_offsets_mono rest (runOp st (EmitOp.newobj body)) _
                ?_⟩
            rw [runOp_offsets]
            exact List.mem_append_right _ (by simp [opOffsets])
          · obtain ⟨off, hoff⟩ := ih (runOp st (EmitOp.newobj body)) i
              (by rw [runOp_n]; simp only [opCount]; omega)
              (by
                rw [runOp_n]
                simp only [opCount, List.map_cons, List.sum_cons] at h2 ⊢
                omega)
            exact ⟨off, hoff⟩

/-- Every reserved object of a program gets an offset entry. -/
theorem runProg_reserved_mem (p : List EmitOp) :
    ∀ st i body, EmitOp.reserved i body ∈ p →
      ∃ off, (i, off) ∈ (runProg st p).offsets := by
  induction p with
  | nil =>
      intro st i body h
      simp at h
  | cons op rest ih =>
      intro st i body h
      rcases List.mem_cons.mp h with heq | hmem
      · subst heq
        refine ⟨st.buffer.length,
          runProg_offsets_mono rest (runOp st (EmitOp.reserved i body)) _
            ?_⟩
        rw [runOp_offsets]
        exact List.mem_append_right _ (by simp [opOffsets])
      · exact ih (runOp st op) i body hmem

theorem enddocProg_reserved_one (headerLine pages pagesRootBody fontBodies
    imageBodies resourceBody infoBody catalogBody xrefLines) :
    EmitOp.reserved 1 pagesRootBody ∈ enddocProg headerLine pages
      pagesRootBody fontBodies imageBodies resourceBody infoBody
      catalogBody xrefLines := by
  unfold enddocProg
  simp

theorem enddocProg_reserved_two (headerLine pages pagesRootBody fontBodies
    imageBodies resourceBody infoBody catalogBody xrefLines) :
    EmitOp.reserved 2 resourceBody ∈ enddocProg headerLine pages
      pagesRootBody fontBodies imageBodies resourceBody infoBody
      catalogBody xrefLines := by
  unfold enddocProg
  simp

/-- **C1.** After `_enddoc` runs on a fresh document (object counter 2,
empty buffer), every allocated object number `i` from 1 to the final `n`
has a recorded xref offset, and that offset is the exact byte position in
the final buffer at which the `"<i> 0 obj"` begin token starts - the
reserved objects 1 (pages root) and 2 (resource dictionary), recorded out
of sequence in the middle of the emission, included. -/
theorem enddoc_xref_offsets_exact (headerLine : List Char)
    (pages : List (List (List Char) × List (List Char)))
    (pagesRootBody : List (List Char))
    (fontBodies imageBodies : List (List (List Char)))
    (resourceBody infoBody catalogBody : List (List Char))
    (xrefLines : List (List Char)) (i : Nat) (h1 : 1 ≤ i)
    (h2 : i ≤ (runProg initSState (enddocProg headerLine pages
      pagesRootBody fontBodies imageBodies resourceBody infoBody
      catalogBody xrefLines)).n) :
    ∃ off,
      (i, off) ∈ (runProg initSState (enddocProg headerLine pages
        pagesRootBody fontBodies imageBodies resourceBody infoBody
        catalogBody xrefLines)).offsets ∧
      offsetValid (runProg initSState (enddocProg headerLine pages
        pagesRootBody fontBodies imageBodies resourceBody infoBody
        catalogBody xrefLines)).buffer (i, off) := by
  have hvalid := runProg_offsets_valid (enddocProg headerLine pages
    pagesRootBody fontBodies imageBodies resourceBody infoBody catalogBody
    xrefLines) initSState (by intro pr hpr; simp [initSState] at hpr)
  have hmem : ∃ off, (i, off) ∈ (runProg initSState (enddocProg headerLine
      pages pagesRootBody fontBodies imageBodies resourceBody infoBody
      catalogBody xrefLines)).offsets := by
    rcases Nat.lt_or_ge i 3 with hlt | hge
    · interval_cases i
      · exact runProg_reserved_mem _ initSState 1 pagesRootBody
          (enddocProg_reserved_one _ _ _ _ _ _ _ _ _)
      · exact runProg_reserved_mem _ initSState 2 resourceBody
          (enddocProg_reserved_two _ _ _ _ _ _ _ _ _)
    · refine runProg_alloc_mem _ initSState i ?_ ?_
      · show initSState.n < i
        simpa [initSState] using hge
      · rw [runProg_n] at h2
        exact h2
  obtain ⟨off, hoff⟩ := hmem
  exact ⟨off, hoff, hvalid _ hoff⟩

/-- **C1 witness.** The empty document (no pages, fonts or images): the
program allocates objects 3 (info) and 4 (catalog) besides the reserved 1
and 2; object 1's begin token sits at its recorded offset. -/
theorem enddoc_xref_offsets_exact_witness :
    1 ≤ 1 ∧
    1 ≤ (runProg initSState
      (enddocProg [] [] [] [] [] [] [] [] [])).n ∧
    ∃ off,
      (1, off) ∈ (runProg initSState
        (enddocProg [] [] [] [] [] [] [] [] [])).offsets ∧
      offsetValid (runProg initSState
        (enddocProg [] [] [] [] [] [] [] [] [])).buffer (1, off) :=
  ⟨le_refl 1, by decide,
    enddoc_xref_offsets_exact [] [] [] [] [] [] [] [] [] 1 (le_refl 1)
      (by decide)⟩

/-! ## CID width-range compression
(`FPDF._putTTfontwidths`, fpdf.py lines 1268-1361)

The embedding models the cache-miss path (`load_cache` returns `None`, so
`rangeid = 0, range_ = {}, range_interval = {}, prevcid = -2,
prevwidth = -1, interval = False, startcid = 1`); the `.cw127.pkl`
mid-loop cache write is file IO with no effect on the computation. The
fonts built by `add_font` carry no `'dw'` key, so the source's
`if 'dw' not in font or ...` guard is always true. The sentinels
`prevcid = -2 / prevwidth = -1` are modelled as `prev = none` (retained
cids are ≥ 1, so `cid == prevcid + 1` is false exactly when no code point
was retained yet). The Python dict `range_` is an insertion-ordered
association list; `sorted(range_.items())` is an insertion sort. -/

/-- `if width == 65535: width = 0` - the sentinel for an explicit
zero-width glyph. -/
def retWidth (wd : Nat) : Nat := if wd = 65535 then 0 else wd

/-- A code point is processed (not skipped) when it is single-byte or in
the usage subset, and its raw width is nonzero. -/
def retainedB (cw : Nat → Nat) (inSubset : Nat → Bool) (cid : Nat) : Bool :=
  (decide (cid ≤ 255) || inSubset cid) && decide (cw cid ≠ 0)

/-- The retained code points of `1..maxUni` with their effective widths:
the reference the serialized `/W` ranges must reproduce. -/
def retainedPairs (cw : Nat → Nat) (inSubset : Nat → Bool) (maxUni : Nat) :
    List (Nat × Nat) :=
  ((List.range' 1 maxUni).filter (retainedB cw inSubset)).map
    (fun cid => (cid, retWidth (cw cid)))

/-- Python dict lookup `range_[k]` (with `[]` for the `setdefault`
fallback). -/
def dictGet (d : List (Nat × List Nat)) (k : Nat) : List Nat :=
  ((d.find? (fun p => p.1 == k)).map Prod.snd).getD []

/-- Python dict store `range_[k] = v`: in-place update of an existing
key, append of a new one (insertion order preserved). -/
def dictSet (d : List (Nat × List Nat)) (k : Nat) (v : List Nat) :
    List (Nat × List Nat) :=
  match d with
  | [] => [(k, v)]
  | p :: rest => if p.1 = k then (k, v) :: rest else p :: dictSet rest k v

/-- `range_interval[k] = True` (keys only, no duplicates). -/
def markAdd (l : List Nat) (k : Nat) : List Nat :=
  if k ∈ l then l else l ++ [k]

/-- The mutable state of the accumulation loop over code points. -/
structure WState where
  rangeid : Nat
  range : List (Nat × List Nat)
  rangeInterval : List Nat
  prev : Option (Nat × Nat)
  interval : Bool
deriving Repr

/-- One iteration of the `for cid in range(startcid, cwlen)` loop of
`_putTTfontwidths` (lines 1294-1335): skip filtered code points, apply
the 65535 sentinel, then extend the current run (uniform or explicit),
restart a uniform run at the previous code point (`pop`), or open a new
run, updating the interval marks and the previous cid/width. -/
def widthStep (cw : Nat → Nat) (inSubset : Nat → Bool) (st : WState)
    (cid : Nat) : WState :=
  if cid > 255 ∧ inSubset cid = false then st
  else if cw cid = 0 then st
  else
    let width := retWidth (cw cid)
    match st.prev with
    | some (pc, pw) =>
        if cid = pc + 1 then
          if width = pw then
            let st2 :=
              if (dictGet st.range st.rangeid).headD 0 = width then
                { st with range := (dictSet st.range st.rangeid
                    (dictGet st.range st.rangeid ++ [width])) }
              else
                { st with
                  rangeid := pc,
                  range := (dictSet
                    (dictSet st.range st.rangeid
                      (dictGet st.range st.rangeid).dropLast)
                    pc [pw, width]) }
            { st2 with
              interval := true,
              rangeInterval := markAdd st2.rangeInterval st2.rangeid,
              prev := some (cid, width) }
          else
            let st2 :=
              if st.interval then
                { st with rangeid := cid,
                          range := dictSet st.range cid [width] }
              else
                { st with range := (dictSet st.range st.rangeid
                    (dictGet st.range st.rangeid ++ [width])) }
            { st2 with interval := false, prev := some (cid, width) }
        else
          { st with rangeid := cid, range := dictSet st.range cid [width],
                    interval := false, prev := some (cid, width) }
    | none =>
        { st with rangeid := cid, range := dictSet st.range cid [width],
                  interval := false, prev := some (cid, width) }

/-- The whole accumulation loop, `cid` from 1 to `maxUni`. -/
def widthMainLoop (cw : Nat → Nat) (inSubset : Nat → Bool) (maxUni : Nat) :
    WState :=
  (List.range' 1 maxUni).foldl (widthStep cw inSubset)
    { rangeid := 0, range := [], rangeInterval := [], prev := none,
      interval := false }

/-- Insert a run into a key-sorted run list. -/
def insertSorted (p : Nat × List Nat) :
    List (Nat × List Nat) → List (Nat × List Nat)
  | [] => [p]
  | q :: rest =>
      if p.1 ≤ q.1 then p :: q :: rest else q :: insertSorted p rest

/-- `sorted(range_.items())`. -/
def sortRuns (l : List (Nat × List Nat)) : List (Nat × List Nat) :=
  l.foldr insertSorted []

/-- Accumulator of the backward-merge post-pass (lines 1336-1354):
the surviving runs so far (`range_[prevk]` is its last element), the
remaining interval marks, and the `nextk`/`prevint` bookkeeping
(`nextk` starts at `-1`, hence an integer). -/
structure MergeSt where
  out : List (Nat × List Nat)
  marks : List Nat
  nextk : Int
  prevint : Bool
deriving Repr

/-- `range_[prevk] = range_[prevk] + range_[k]`: extend the run the merge
pass last kept. -/
def extendLast (l : List (Nat × List Nat)) (ws : List Nat) :
    List (Nat × List Nat) :=
  match l with
  | [] => []
  | [p] => [(p.1, p.2 ++ ws)]
  | p :: rest => p :: extendLast rest ws

/-- One iteration of the merge pass over the sorted runs: a short run
starting exactly at `nextk`, not after a big interval run, and not itself
a (≥ 3 entry) recorded interval, is merged backward into the previous
run; then `nextk`/`prevint` are updated, with `nextk` decremented for
recorded interval runs. -/
def mergeStep (acc : MergeSt) (kws : Nat × List Nat) : MergeSt :=
  let k := kws.1
  let ws := kws.2
  let cws := ws.length
  let acc :=
    if (k : Int) = acc.nextk ∧ acc.prevint = false ∧
        (k ∉ acc.marks ∨ cws < 3) then
      { acc with
        marks := (if k ∈ acc.marks then acc.marks.erase k else acc.marks),
        out := extendLast acc.out ws }
    else { acc with out := acc.out ++ [(k, ws)] }
  let nk : Int := (k : Int) + cws
  if k ∈ acc.marks then
    { acc with nextk := nk - 1, prevint := decide (cws > 3),
               marks := acc.marks.erase k }
  else { acc with nextk := nk, prevint := false }

/-- The whole merge pass. -/
def mergeRun (runs : List (Nat × List Nat)) (marks : List Nat) :
    List (Nat × List Nat) :=
  (runs.foldl mergeStep
    { out := [], marks := marks, nextk := -1, prevint := false }).out

/-- One serialized `/W` entry: `"start stop width"` for a uniform run,
`"start [ w0 w1 ... ]"` for an explicit one. -/
inductive WEntry where
  | uniform (start stop wd : Nat)
  | arr (start : Nat) (ws : List Nat)
deriving DecidableEq, Repr

/-- Serialize one surviving run (lines 1355-1360): uniform when
`len(set(ws)) == 1`. -/
def serializeRun (p : Nat × List Nat) : WEntry :=
  if p.2 ≠ [] ∧ p.2.all (fun w => w == p.2.headD 0) then
    WEntry.uniform p.1 (p.1 + p.2.length - 1) (p.2.headD 0)
  else WEntry.arr p.1 p.2

/-- Serialize all surviving runs. -/
def serializeW (runs : List (Nat × List Nat)) : List WEntry :=
  runs.map serializeRun

/-- Expansion of a serialized entry back to explicit (cid, width) pairs:
a uniform entry covers `start..stop` at one width, an array entry assigns
`ws[i]` to `start + i`. -/
def expandEntry : WEntry → List (Nat × Nat)
  | WEntry.uniform a b wd => (List.range' a (b + 1 - a)).map (fun c => (c, wd))
  | WEntry.arr a ws => (List.range' a ws.length).zip ws

/-- Expansion of a whole serialized `/W` list. -/
def expandW (es : List WEntry) : List (Nat × Nat) := es.flatMap expandEntry

/-- The `/W` entries `_putTTfontwidths` emits for a width table `cw`, a
usage subset and a maximal used code point: accumulate runs, post-merge
over the key-sorted items, serialize. -/
def putTTfontwidths (cw : Nat → Nat) (inSubset : Nat → Bool)
    (maxUni : Nat) : List WEntry :=
  let st := widthMainLoop cw inSubset maxUni
  serializeW (mergeRun (sortRuns st.range) st.rangeInterval)

/-- Direct expansion of a run list (each run `(k, ws)` covers
`k..k+len-1`). -/
def expandRuns (l : List (Nat × List Nat)) : List (Nat × Nat) :=
  l.flatMap (fun p => (List.range' p.1 p.2.length).zip p.2)

theorem dictGet_last (rs : List (Nat × List Nat)) (rid : Nat)
    (ws : List Nat) (h : ∀ q ∈ rs, q.1 ≠ rid) :
    dictGet (rs ++ [(rid, ws)]) rid = ws := by
  induction rs with
  | nil => simp [dictGet]
  | cons q rest ih =>
      have hq : q.1 ≠ rid := h q (List.mem_cons_self q rest)
      have hrest := ih (fun p hp => h p (List.mem_cons_of_mem q hp))
      simp only [dictGet, List.cons_append, List.find?] at hrest ⊢
      rw [show (q.1 == rid) = false from by simpa using hq]
      exact hrest

theorem dictSet_last (rs : List (Nat × List Nat)) (rid : Nat)
    (ws v : List Nat) (h : ∀ q ∈ rs, q.1 ≠ rid) :
    dictSet (rs ++ [(rid, ws)]) rid v = rs ++ [(rid, v)] := by
  induction rs with
  | nil => simp [dictSet]
  | cons q rest ih =>
      have hq : q.1 ≠ rid := h q (List.mem_cons_self q rest)
      have hrest := ih (fun p hp => h p (List.mem_cons_of_mem q hp))
      simp only [dictSet, List.cons_append]
      rw [if_neg hq]
      exact congrArg (List.cons q) hrest

theorem dictSet_new (l : List (Nat × List Nat)) (k : Nat) (v : List Nat)
    (h : ∀ q ∈ l, q.1 ≠ k) : dictSet l k v = l ++ [(k, v)] := by
  induction l with
  | nil => simp [dictSet]
  | cons q rest ih =>
      have hq : q.1 ≠ k := h q (List.mem_cons_self q rest)
      simp only [dictSet, List.cons_append]
      rw [if_neg hq, ih (fun p hp => h p (List.mem_cons_of_mem q hp))]

theorem zipRange_snoc (k : Nat) (ws : List Nat) (w : Nat) :
    (List.range' k (ws.length + 1)).zip (ws ++ [w]) =
      (List.range' k ws.length).zip ws ++ [(k + ws.length, w)] := by
  induction ws generalizing k with
  | nil => simp [List.range']
  | cons a as ih =>
      have harith : k + 1 + as.length = k + (as.length + 1) := by omega
      show (List.range' k (as.length + 1 + 1)).zip (a :: (as ++ [w])) = _
      rw [List.range'_succ, List.zip_cons_cons, ih (k + 1), harith]
      show _ = (List.range' k (as.length + 1)).zip (a :: as) ++ _
      rw [List.range'_succ, List.zip_cons_cons]
      rfl

theorem expandRuns_nil : expandRuns [] = [] := rfl

theorem expandRuns_append (l1 l2 : List (Nat × List Nat)) :
    expandRuns (l1 ++ l2) = expandRuns l1 ++ expandRuns l2 := by
  simp [expandRuns]

theorem expandRuns_single (k : Nat) (ws : List Nat) :
    expandRuns [(k, ws)] = (List.range' k ws.length).zip ws := by
  simp [expandRuns]

/-- Loop invariant of the width accumulation: the insertion-ordered run
list expands exactly to the retained pairs processed so far, runs are
nonempty with positive keys, cover disjoint ascending segments ending at
or before `prevcid + 1`, and the current run `rangeid` is the last entry,
ending exactly at `prevcid`. -/
def WInv (st : WState) (done : List (Nat × Nat)) : Prop :=
  match st.prev with
  | none => st.range = [] ∧ done = []
  | some (pc, pw) =>
      expandRuns st.range = done ∧
      (∀ q ∈ st.range, q.2 ≠ []) ∧
      (∀ q ∈ st.range, q.1 + q.2.length ≤ pc + 1) ∧
      (∀ q ∈ st.range, 1 ≤ q.1) ∧
      List.Pairwise (fun a b => a.1 + a.2.length ≤ b.1) st.range ∧
      1 ≤ pc ∧
      (∃ rs ws, st.range = rs ++ [(st.rangeid, ws)] ∧
        st.rangeid + ws.length = pc + 1) ∧
      done.getLast? = some (pc, pw)

theorem WInv_build (st2 : WState) (done : List (Nat × Nat)) (cid w : Nat)
    (hprev2 : st2.prev = some (cid, w))
    (hexp : expandRuns st2.range = done)
    (hne : ∀ q ∈ st2.range, q.2 ≠ [])
    (hend : ∀ q ∈ st2.range, q.1 + q.2.length ≤ cid + 1)
    (hpos : ∀ q ∈ st2.range, 1 ≤ q.1)
    (hpair : List.Pairwise (fun a b => a.1 + a.2.length ≤ b.1) st2.range)
    (hc1 : 1 ≤ cid)
    (hdec : ∃ rs ws, st2.range = rs ++ [(st2.rangeid, ws)] ∧
      st2.rangeid + ws.length = cid + 1)
    (hlast : done.getLast? = some (cid, w)) :
    WInv st2 done := by
  unfold WInv
  rw [hprev2]
  exact ⟨hexp, hne, hend, hpos, hpair, hc1, hdec, hlast⟩

theorem pairwise_last_bound (rs : List (Nat × List Nat)) (rid : Nat)
    (ws : List Nat)
    (hpair : List.Pairwise (fun a b => a.1 + a.2.length ≤ b.1)
      (rs ++ [(rid, ws)])) :
    ∀ q ∈ rs, q.1 + q.2.length ≤ rid := by
  intro q hq
  exact (List.pairwise_append.mp hpair).2.2 q hq (rid, ws) (by simp)

/-- Skipped code points leave the loop state untouched. -/
theorem widthStep_skip (cw : Nat → Nat) (inSubset : Nat → Bool)
    (st : WState) (cid : Nat) (h : retainedB cw inSubset cid = false) :
    widthStep cw inSubset st cid = st := by
  by_cases h1 : cid > 255 ∧ inSubset cid = false
  · unfold widthStep
    rw [if_pos h1]
  · have h2 : cw cid = 0 := by
      simp only [retainedB, Bool.and_eq_false_iff, Bool.or_eq_false_iff,
        decide_eq_false_iff_not, not_le, not_not] at h
      rcases h with ⟨hle, hsub⟩ | h
      · exact absurd ⟨hle, hsub⟩ h1
      · exact h
    unfold widthStep
    rw [if_neg h1, if_pos h2]

/-- One retained or skipped code point preserves the loop invariant,
extending the processed-pair list accordingly. -/
theorem widthStep_inv (cw : Nat → Nat) (inSubset : Nat → Bool)
    (st : WState) (cid : Nat) (done : List (Nat × Nat))
    (hinv : WInv st done) (h1 : 1 ≤ cid)
    (hgt : ∀ pr ∈ done, pr.1 < cid) :
    WInv (widthStep cw inSubset st cid)
      (done ++ (if retainedB cw inSubset cid = true
        then [(cid, retWidth (cw cid))] else [])) := by
  by_cases hret : retainedB cw inSubset cid = true
  · rw [if_pos hret]
    have hskip1 : ¬ (cid > 255 ∧ inSubset cid = false) := by
      rintro ⟨ha, hb⟩
      simp only [retainedB, Bool.and_eq_true, Bool.or_eq_true,
        decide_eq_true_eq] at hret
      rcases hret.1 with h | h
      · omega
      · rw [hb] at h
        exact Bool.noConfusion h
    have hskip2 : ¬ cw cid = 0 := by
      simp only [retainedB, Bool.and_eq_true, decide_eq_true_eq] at hret
      exact hret.2
    cases hprev : st.prev with
    | none =>
        simp only [WInv, hprev] at hinv
        obtain ⟨hr0, hd0⟩ := hinv
        subst hd0
        unfold widthStep
        rw [if_neg hskip1, if_neg hskip2]
        simp only [hprev]
        refine WInv_build _ _ cid (retWidth (cw cid)) rfl ?_ ?_ ?_ ?_ ?_ h1
          ?_ ?_
        · show expandRuns (dictSet st.range cid [retWidth (cw cid)]) = _
          rw [hr0]
          simp [dictSet, expandRuns, List.range']
        · show ∀ q ∈ dictSet st.range cid [retWidth (cw cid)], q.2 ≠ []
          rw [hr0]
          simp [dictSet]
        · show ∀ q ∈ dictSet st.range cid [retWidth (cw cid)],
            q.1 + q.2.length ≤ cid + 1
          rw [hr0]
          simp [dictSet]
        · show ∀ q ∈ dictSet st.range cid [retWidth (cw cid)], 1 ≤ q.1
          rw [hr0]
          simp [dictSet]
          omega
        · show List.Pairwise _ (dictSet st.range cid [retWidth (cw cid)])
          rw [hr0]
          simp [dictSet]
        · refine ⟨[], [retWidth (cw cid)], ?_, by simp⟩
          show dictSet st.range cid [retWidth (cw cid)] = _
          rw [hr0]
          simp [dictSet]
        · simp
    | some pcw =>
        obtain ⟨pc, pw⟩ := pcw
        simp only [WInv, hprev] at hinv
        obtain ⟨hexp, hne, hend, hpos, hpair, hpc1, ⟨rs, ws, hdec, hlen⟩,
          hlast⟩ := hinv
        have hpclt : pc < cid :=
          hgt (pc, pw) (List.mem_of_mem_getLast? hlast)
        have hwsne : ws ≠ [] := hne (st.rangeid, ws) (by rw [hdec]; simp)
        have hwslen : 0 < ws.length := List.length_pos.mpr hwsne
        have hqend : ∀ q ∈ rs, q.1 + q.2.length ≤ st.rangeid :=
          pairwise_last_bound rs _ ws (hdec ▸ hpair)
        have hqlt : ∀ q ∈ rs, q.1 < st.rangeid := by
          intro q hq
          have h2 := hqend q hq
          have h3 : q.2 ≠ [] :=
            hne q (by rw [hdec]; exact List.mem_append_left _ hq)
          have h4 : 0 < q.2.length := List.length_pos.mpr h3
          omega
        have hqne : ∀ q ∈ rs, q.1 ≠ st.rangeid := fun q hq =>
          Nat.ne_of_lt (hqlt q hq)
        have hget : dictGet st.range st.rangeid = ws := by
          rw [hdec]
          exact dictGet_last rs _ ws hqne
        have hkeyne : ∀ q ∈ st.range, q.1 ≠ cid := by
          intro q hq
          have h2 := hend q hq
          have h3 : q.2 ≠ [] := hne q hq
          have h4 : 0 < q.2.length := List.length_pos.mpr h3
          omega
        -- rear decomposition of the current run
        obtain ⟨ws0, w0, hws⟩ : ∃ ws0 w0, ws = ws0 ++ [w0] :=
          ⟨ws.dropLast, ws.getLast hwsne,
            (List.dropLast_append_getLast hwsne).symm⟩
        have hws0len : st.rangeid + ws0.length = pc := by
          rw [hws, List.length_append, List.length_singleton] at hlen
          omega
        have hexp2 : done =
            expandRuns rs ++ ((List.range' st.rangeid ws0.length).zip ws0
              ++ [(st.rangeid + ws0.length, w0)]) := by
          rw [← hexp, hdec, expandRuns_append, expandRuns_single, hws]
          rw [show (ws0 ++ [w0]).length = ws0.length + 1 from by simp]
          rw [zipRange_snoc]
        have hw0 : w0 = pw := by
          have hlast2 : done.getLast? = some (st.rangeid + ws0.length, w0) := by
            rw [hexp2, ← List.append_assoc, List.getLast?_concat]
          have h5 := hlast.symm.trans hlast2
          have h6 := Option.some.inj h5
          rw [Prod.mk.injEq] at h6
          exact h6.2.symm
        -- the three kinds of range update
        have Gnew : WInv
            { st with rangeid := cid,
                      range := dictSet st.range cid [retWidth (cw cid)],
                      interval := false,
                      prev := some (cid, retWidth (cw cid)) }
            (done ++ [(cid, retWidth (cw cid))]) := by
          have hset : dictSet st.range cid [retWidth (cw cid)] =
              st.range ++ [(cid, [retWidth (cw cid)])] :=
            dictSet_new _ _ _ hkeyne
          refine WInv_build _ _ cid (retWidth (cw cid)) rfl ?_ ?_ ?_ ?_ ?_
            h1 ?_ ?_
          · show expandRuns (dictSet st.range cid [retWidth (cw cid)]) = _
            rw [hset, expandRuns_append, expandRuns_single, hexp]
            simp [List.range']
          · show ∀ q ∈ dictSet st.range cid [retWidth (cw cid)], q.2 ≠ []
            rw [hset]
            intro q hq
            rcases List.mem_append.mp hq with h | h
            · exact hne q h
            · simp at h
              rw [h]
              simp
          · show ∀ q ∈ dictSet st.range cid [retWidth (cw cid)],
              q.1 + q.2.length ≤ cid + 1
            rw [hset]
            intro q hq
            rcases List.mem_append.mp hq with h | h
            · have := hend q h
              omega
            · simp at h
              rw [h]
              simp
          · show ∀ q ∈ dictSet st.range cid [retWidth (cw cid)], 1 ≤ q.1
            rw [hset]
            intro q hq
            rcases List.mem_append.mp hq with h | h
            · exact hpos q h
            · simp at h
              rw [h]
              exact h1
          · show List.Pairwise _ (dictSet st.range cid [retWidth (cw cid)])
            rw [hset]
            rw [List.pairwise_append]
            refine ⟨hpair, by simp, ?_⟩
            intro a ha b hb
            simp at hb
            rw [hb]
            have := hend a ha
            omega
          · refine ⟨st.range, [retWidth (cw cid)], ?_, by simp⟩
            show dictSet st.range cid [retWidth (cw cid)] = _
            rw [hset]
          · rw [List.getLast?_concat]
        have hridpos : 1 ≤ st.rangeid :=
          hpos (st.rangeid, ws) (by rw [hdec]; simp)
        have hrspair : List.Pairwise (fun a b => a.1 + a.2.length ≤ b.1) rs :=
          (List.pairwise_append.mp (hdec ▸ hpair)).1
        unfold widthStep
        rw [if_neg hskip1, if_neg hskip2]
        simp only [hprev]
        by_cases hc : cid = pc + 1
        · rw [if_pos hc]
          have hridcid : st.rangeid + ws.length = cid := by omega
          have hsetx : dictSet st.range st.rangeid
              (dictGet st.range st.rangeid ++ [retWidth (cw cid)]) =
              rs ++ [(st.rangeid, ws ++ [retWidth (cw cid)])] := by
            rw [hget, hdec]
            exact dictSet_last rs _ ws _ hqne
          have Gext : ∀ (itv : Bool) (marks : List Nat),
              WInv ⟨st.rangeid,
                dictSet st.range st.rangeid
                  (dictGet st.range st.rangeid ++ [retWidth (cw cid)]),
                marks, some (cid, retWidth (cw cid)), itv⟩
                (done ++ [(cid, retWidth (cw cid))]) := by
            intro itv marks
            refine WInv_build _ _ cid (retWidth (cw cid)) rfl ?_ ?_ ?_ ?_
              ?_ h1 ?_ ?_
            · show expandRuns (dictSet st.range st.rangeid
                (dictGet st.range st.rangeid ++ [retWidth (cw cid)])) = _
              rw [hsetx, expandRuns_append, expandRuns_single]
              rw [show (ws ++ [retWidth (cw cid)]).length = ws.length + 1
                from by simp]
              rw [zipRange_snoc, hridcid, ← List.append_assoc]
              congr 1
              rw [← expandRuns_single, ← expandRuns_append, ← hdec, hexp]
            · show ∀ q ∈ dictSet st.range st.rangeid
                (dictGet st.range st.rangeid ++ [retWidth (cw cid)]),
                  q.2 ≠ []
              rw [hsetx]
              intro q hq
              rcases List.mem_append.mp hq with h | h
              · exact hne q (by rw [hdec]; exact List.mem_append_left _ h)
              · simp at h
                rw [h]
                simp
            · show ∀ q ∈ dictSet st.range st.rangeid
                (dictGet st.range st.rangeid ++ [retWidth (cw cid)]),
                  q.1 + q.2.length ≤ cid + 1
              rw [hsetx]
              intro q hq
              rcases List.mem_append.mp hq with h | h
              · have := hqend q h
                omega
              · simp at h
                rw [h]
                simp
                omega
            · show ∀ q ∈ dictSet st.range st.rangeid
                (dictGet st.range st.rangeid ++ [retWidth (cw cid)]),
                  1 ≤ q.1
              rw [hsetx]
              intro q hq
              rcases List.mem_append.mp hq with h | h
              · exact hpos q (by rw [hdec]; exact List.mem_append_left _ h)
              · simp at h
                rw [h]
                exact hridpos
            · show List.Pairwise _ (dictSet st.range st.rangeid
                (dictGet st.range st.rangeid ++ [retWidth (cw cid)]))
              rw [hsetx, List.pairwise_append]
              refine ⟨hrspair, by simp, ?_⟩
              intro a ha b hb
              simp at hb
              rw [hb]
              exact hqend a ha
            · refine ⟨rs, ws ++ [retWidth (cw cid)], ?_, ?_⟩
              · show dictSet st.range st.rangeid
                  (dictGet st.range st.rangeid ++ [retWidth (cw cid)]) = _
                rw [hsetx]
              · simp
                omega
            · rw [List.getLast?_concat]
          by_cases hwp : retWidth (cw cid) = pw
          · rw [if_pos hwp]
            by_cases hhead : (dictGet st.range st.rangeid).headD 0 =
                retWidth (cw cid)
            · rw [if_pos hhead]
              exact Gext true (markAdd st.rangeInterval st.rangeid)
            · rw [if_neg hhead]
              -- pop branch: restart a two-entry uniform run at prevcid
              have hws0ne : ws0 ≠ [] := by
                intro h0
                apply hhead
                rw [hget, hws, h0, List.nil_append]
                show w0 = retWidth (cw cid)
                rw [hw0, hwp]
              have hws0pos : 0 < ws0.length := List.length_pos.mpr hws0ne
              have hridlt : st.rangeid < pc := by omega
              have hdrop : (dictGet st.range st.rangeid).dropLast = ws0 := by
                rw [hget, hws]
                exact List.dropLast_concat
              have hset1 : dictSet st.range st.rangeid
                  ((dictGet st.range st.rangeid).dropLast) =
                  rs ++ [(st.rangeid, ws0)] := by
                rw [hdrop, hdec]
                exact dictSet_last rs _ ws _ hqne
              have hkeyne2 : ∀ q ∈ rs ++ [(st.rangeid, ws0)], q.1 ≠ pc := by
                intro q hq
                rcases List.mem_append.mp hq with h | h
                · have := hqlt q h
                  omega
                · simp at h
                  rw [h]
                  omega
              have hset2 : dictSet (rs ++ [(st.rangeid, ws0)]) pc
                  [pw, retWidth (cw cid)] =
                  rs ++ [(st.rangeid, ws0)] ++ [(pc, [pw, retWidth (cw cid)])] :=
                dictSet_new _ _ _ hkeyne2
              have hz2 : (List.range' pc
                  ([pw, retWidth (cw cid)] : List Nat).length).zip
                    [pw, retWidth (cw cid)] =
                  [(pc, pw), (pc + 1, retWidth (cw cid))] := by
                simp [List.range'_succ]
              refine WInv_build _ _ cid (retWidth (cw cid)) rfl ?_ ?_ ?_
                ?_ ?_ h1 ?_ ?_
              · show expandRuns (dictSet (dictSet st.range st.rangeid
                  ((dictGet st.range st.rangeid).dropLast)) pc
                  [pw, retWidth (cw cid)]) = _
                rw [hset1, hset2, expandRuns_append, expandRuns_append,
                  expandRuns_single, expandRuns_single, hz2, hexp2,
                  hws0len, hw0, hc]
                simp [List.append_assoc]
              · show ∀ q ∈ dictSet (dictSet st.range st.rangeid
                  ((dictGet st.range st.rangeid).dropLast)) pc
                  [pw, retWidth (cw cid)], q.2 ≠ []
                rw [hset1, hset2]
                intro q hq
                rcases List.mem_append.mp hq with h | h
                · rcases List.mem_append.mp h with h2 | h2
                  · exact hne q
                      (by rw [hdec]; exact List.mem_append_left _ h2)
                  · simp at h2
                    rw [h2]
                    exact hws0ne
                · simp at h
                  rw [h]
                  simp
              · show ∀ q ∈ dictSet (dictSet st.range st.rangeid
                  ((dictGet st.range st.rangeid).dropLast)) pc
                  [pw, retWidth (cw cid)], q.1 + q.2.length ≤ cid + 1
                rw [hset1, hset2]
                intro q hq
                rcases List.mem_append.mp hq with h | h
                · rcases List.mem_append.mp h with h2 | h2
                  · have := hqend q h2
                    omega
                  · simp at h2
                    rw [h2]
                    simp
                    omega
                · simp at h
                  rw [h]
                  simp
                  omega
              · show ∀ q ∈ dictSet (dictSet st.range st.rangeid
                  ((dictGet st.range st.rangeid).dropLast)) pc
                  [pw, retWidth (cw cid)], 1 ≤ q.1
                rw [hset1, hset2]
                intro q hq
                rcases List.mem_append.mp hq with h | h
                · rcases List.mem_append.mp h with h2 | h2
                  · exact hpos q
                      (by rw [hdec]; exact List.mem_append_left _ h2)
                  · simp at h2
                    rw [h2]
                    exact hridpos
                · simp at h
                  rw [h]
                  exact hpc1
              · show List.Pairwise _ (dictSet (dictSet st.range st.rangeid
                  ((dictGet st.range st.rangeid).dropLast)) pc
                  [pw, retWidth (cw cid)])
                rw [hset1, hset2, List.pairwise_append]
                refine ⟨?_, by simp, ?_⟩
                · rw [List.pairwise_append]
                  refine ⟨hrspair, by simp, ?_⟩
                  intro a ha b hb
                  simp at hb
                  rw [hb]
                  exact hqend a ha
                · intro a ha b hb
                  simp at hb
                  rw [hb]
                  rcases List.mem_append.mp ha with h | h
                  · have := hqend a h
                    omega
                  · simp at h
                    rw [h]
                    simp
                    omega
              · refine ⟨rs ++ [(st.rangeid, ws0)], [pw, retWidth (cw cid)],
                  ?_, ?_⟩
                · show dictSet (dictSet st.range st.rangeid
                    ((dictGet st.range st.rangeid).dropLast)) pc
                    [pw, retWidth (cw cid)] = _
                  rw [hset1, hset2]
                · simp
                  omega
              · rw [List.getLast?_concat]
          · rw [if_neg hwp]
            by_cases hint : st.interval = true
            · rw [if_pos hint]
              exact Gnew
            · rw [if_neg hint]
              exact Gext false st.rangeInterval
        · rw [if_neg hc]
          exact Gnew
  · rw [if_neg hret]
    rw [widthStep_skip cw inSubset st cid
      (Bool.not_eq_true _ ▸ (by simpa using hret))]
    simpa using hinv

theorem widthFold_inv (cw : Nat → Nat) (inSubset : Nat → Bool) :
    ∀ (len start : Nat) (st : WState) (done : List (Nat × Nat)),
      WInv st done → 1 ≤ start → (∀ pr ∈ done, pr.1 < start) →
      WInv ((List.range' start len).foldl (widthStep cw inSubset) st)
        (done ++ ((List.range' start len).filter
          (retainedB cw inSubset)).map
            (fun cid => (cid, retWidth (cw cid)))) := by
  intro len
  induction len with
  | zero =>
      intro start st done hinv h1 hgt
      simpa using hinv
  | succ len ih =>
      intro start st done hinv h1 hgt
      have hstep := widthStep_inv cw inSubset st start done hinv h1 hgt
      have hnext : ∀ pr ∈ done ++ (if retainedB cw inSubset start = true
          then [(start, retWidth (cw start))] else []), pr.1 < start + 1 := by
        intro pr hpr
        rcases List.mem_append.mp hpr with h | h
        · exact Nat.lt_succ_of_lt (hgt pr h)
        · by_cases hr : retainedB cw inSubset start = true
          · rw [if_pos hr] at h
            simp at h
            rw [h]
            exact Nat.lt_succ_self start
          · rw [if_neg hr] at h
            simp at h
      have hrec := ih (start + 1) (widthStep cw inSubset st start)
        (done ++ (if retainedB cw inSubset start = true
          then [(start, retWidth (cw start))] else []))
        hstep (by omega) hnext
      have harg : done ++ ((List.range' start (len + 1)).filter
          (retainedB cw inSubset)).map
            (fun cid => (cid, retWidth (cw cid))) =
          (done ++ (if retainedB cw inSubset start = true
            then [(start, retWidth (cw start))] else [])) ++
          ((List.range' (start + 1) len).filter
            (retainedB cw inSubset)).map
              (fun cid => (cid, retWidth (cw cid))) := by
        rw [List.range'_succ, List.filter_cons]
        by_cases hr : retainedB cw inSubset start = true <;>
          simp [hr, List.append_assoc]
      rw [harg, List.range'_succ, List.foldl_cons]
      exact hrec

/-- The accumulated runs of `_putTTfontwidths` expand exactly to the
retained code points with their effective widths. -/
theorem widthMainLoop_inv (cw : Nat → Nat) (inSubset : Nat → Bool)
    (maxUni : Nat) :
    WInv (widthMainLoop cw inSubset maxUni)
      (retainedPairs cw inSubset maxUni) := by
  have h := widthFold_inv cw inSubset maxUni 1
    { rangeid := 0, range := [], rangeInterval := [], prev := none,
      interval := false } []
    (by unfold WInv; exact ⟨rfl, rfl⟩) le_rfl (by simp)
  simpa [widthMainLoop, retainedPairs] using h

/-- End position (exclusive) of a run's coverage. -/
def runsEnd (p : Nat × List Nat) : Nat := p.1 + p.2.length

theorem expandRuns_cons (p : Nat × List Nat) (l : List (Nat × List Nat)) :
    expandRuns (p :: l) =
      (List.range' p.1 p.2.length).zip p.2 ++ expandRuns l := by
  simp [expandRuns]

theorem extendLast_eq (l : List (Nat × List Nat)) (p : Nat × List Nat)
    (ws : List Nat) :
    extendLast (l ++ [p]) ws = l ++ [(p.1, p.2 ++ ws)] := by
  induction l with
  | nil => rfl
  | cons q rest ih =>
      cases rest with
      | nil => rfl
      | cons a as => exact congrArg (List.cons q) ih

theorem zipRange_append2 (k : Nat) (u v : List Nat) :
    (List.range' k (u.length + v.length)).zip (u ++ v) =
      (List.range' k u.length).zip u ++
        (List.range' (k + u.length) v.length).zip v := by
  induction u generalizing k with
  | nil => simp
  | cons a as ih =>
      show (List.range' k (as.length + 1 + v.length)).zip
        (a :: (as ++ v)) = _
      rw [show as.length + 1 + v.length = (as.length + v.length) + 1 from
        by omega]
      rw [List.range'_succ, List.zip_cons_cons, ih (k + 1)]
      show _ = (List.range' k (as.length + 1)).zip (a :: as) ++ _
      rw [List.range'_succ, List.zip_cons_cons]
      rw [show k + (a :: as).length = k + 1 + as.length from by simp; omega]
      rfl

/-- Invariant of the backward-merge pass: the runs already emitted plus
the remaining runs still expand to the same pair list; emitted runs are
nonempty; and `nextk` points at (or one before) the end of the last
emitted run, which itself ends at or before every remaining run. -/
def MInv (total : List (Nat × Nat)) (acc : MergeSt)
    (rem : List (Nat × List Nat)) : Prop :=
  expandRuns acc.out ++ expandRuns rem = total ∧
  (∀ q ∈ acc.out, q.2 ≠ []) ∧
  (acc.out = [] → acc.nextk = -1) ∧
  (∀ q, acc.out.getLast? = some q →
    (acc.nextk = (runsEnd q : Int) ∨ acc.nextk = (runsEnd q : Int) - 1) ∧
    ∀ r ∈ rem, runsEnd q ≤ r.1)

theorem mergeStep_inv (total : List (Nat × Nat)) (acc : MergeSt)
    (r : Nat × List Nat) (rest : List (Nat × List Nat))
    (hinv : MInv total acc (r :: rest))
    (hne : ∀ q ∈ r :: rest, q.2 ≠ [])
    (hpos : ∀ q ∈ r :: rest, 1 ≤ q.1)
    (hpair : List.Pairwise (fun a b => a.1 + a.2.length ≤ b.1)
      (r :: rest)) :
    MInv total (mergeStep acc r) rest := by
  obtain ⟨k, ws⟩ := r
  obtain ⟨hA, hB, hC0, hC⟩ := hinv
  have hrest_ge : ∀ q ∈ rest, k + ws.length ≤ q.1 := by
    intro q hq
    exact (List.pairwise_cons.mp hpair).1 q hq
  have hk1 : 1 ≤ k := hpos (k, ws) (List.mem_cons_self _ _)
  have hwsne : ws ≠ [] := hne (k, ws) (List.mem_cons_self _ _)
  simp only [mergeStep]
  by_cases hm : (k : Int) = acc.nextk ∧ acc.prevint = false ∧
      (k ∉ acc.marks ∨ ws.length < 3)
  · rw [if_pos hm]
    -- backward merge into the last emitted run
    have houtne : acc.out ≠ [] := by
      intro h0
      have := hC0 h0
      rw [this] at hm
      omega
    have hlast2 : acc.out.getLast? = some (acc.out.getLast houtne) :=
      List.getLast?_eq_getLast acc.out houtne
    set q := acc.out.getLast houtne with hq
    have hdecomp : acc.out = acc.out.dropLast ++ [q] :=
      (List.dropLast_append_getLast houtne).symm
    obtain ⟨hnk, hge⟩ := hC q hlast2
    have hgek : runsEnd q ≤ k := hge (k, ws) (List.mem_cons_self _ _)
    have hkend : k = runsEnd q := by
      rcases hnk with h | h
      · have h2 := hm.1.trans h
        exact_mod_cast h2
      · exfalso
        have h2 := hm.1.trans h
        omega
    have hout2 : extendLast acc.out ws =
        acc.out.dropLast ++ [(q.1, q.2 ++ ws)] := by
      rw [hdecomp, extendLast_eq]
      congr 1
      rw [← hdecomp]
    have hexp : expandRuns (extendLast acc.out ws) =
        expandRuns acc.out ++ (List.range' k ws.length).zip ws := by
      rw [hout2]
      rw [show acc.out = acc.out.dropLast ++ [q] from hdecomp]
      rw [expandRuns_append, expandRuns_append, expandRuns_single,
        expandRuns_single]
      rw [show (q.2 ++ ws).length = q.2.length + ws.length from by simp]
      rw [zipRange_append2, hkend]
      simp [runsEnd, List.append_assoc]
    have hA2 : expandRuns (extendLast acc.out ws) ++ expandRuns rest =
        total := by
      rw [hexp, ← hA, expandRuns_cons]
      simp [List.append_assoc]
    have hB2 : ∀ p ∈ extendLast acc.out ws, p.2 ≠ [] := by
      rw [hout2]
      intro p hp
      rcases List.mem_append.mp hp with h | h
      · exact hB p (List.mem_of_mem_dropLast h)
      · simp at h
        rw [h]
        simp only [ne_eq, List.append_eq_nil]
        intro h2
        exact hwsne h2.2
    have hLast2 : (extendLast acc.out ws).getLast? =
        some (q.1, q.2 ++ ws) := by
      rw [hout2, List.getLast?_concat]
    have hNe2 : extendLast acc.out ws ≠ [] := by
      rw [hout2]
      simp
    have hEnd2 : runsEnd (q.1, q.2 ++ ws) = k + ws.length := by
      simp [runsEnd] at hkend ⊢
      omega
    by_cases hmem : k ∈ (if k ∈ acc.marks then acc.marks.erase k
        else acc.marks)
    · rw [if_pos hmem]
      refine ⟨hA2, hB2, by intro h0; exact absurd h0 hNe2, ?_⟩
      intro p hp
      rw [hLast2] at hp
      obtain rfl : p = (q.1, q.2 ++ ws) := (Option.some.inj hp).symm
      refine ⟨Or.inr ?_, ?_⟩
      · show (k : Int) + ws.length - 1 = _
        rw [hEnd2]
        push_cast
        ring
      · intro p2 hp2
        rw [hEnd2]
        exact hrest_ge p2 hp2
    · rw [if_neg hmem]
      refine ⟨hA2, hB2, by intro h0; exact absurd h0 hNe2, ?_⟩
      intro p hp
      rw [hLast2] at hp
      obtain rfl : p = (q.1, q.2 ++ ws) := (Option.some.inj hp).symm
      refine ⟨Or.inl ?_, ?_⟩
      · show (k : Int) + ws.length = _
        rw [hEnd2]
        push_cast
        ring
      · intro p2 hp2
        rw [hEnd2]
        exact hrest_ge p2 hp2
  · rw [if_neg hm]
    have hA2 : expandRuns (acc.out ++ [(k, ws)]) ++ expandRuns rest =
        total := by
      rw [expandRuns_append, expandRuns_single, ← hA, expandRuns_cons]
      simp [List.append_assoc]
    have hB2 : ∀ p ∈ acc.out ++ [(k, ws)], p.2 ≠ [] := by
      intro p hp
      rcases List.mem_append.mp hp with h | h
      · exact hB p h
      · simp at h
        rw [h]
        exact hwsne
    have hLast2 : (acc.out ++ [(k, ws)]).getLast? = some (k, ws) :=
      List.getLast?_concat _
    have hNe2 : acc.out ++ [(k, ws)] ≠ [] := by simp
    by_cases hmem : k ∈ acc.marks
    · rw [if_pos hmem]
      refine ⟨hA2, hB2, by intro h0; exact absurd h0 hNe2, ?_⟩
      intro p hp
      rw [hLast2] at hp
      obtain rfl : p = (k, ws) := (Option.some.inj hp).symm
      refine ⟨Or.inr ?_, ?_⟩
      · show (k : Int) + ws.length - 1 = _
        simp [runsEnd]
      · intro p2 hp2
        exact hrest_ge p2 hp2
    · rw [if_neg hmem]
      refine ⟨hA2, hB2, by intro h0; exact absurd h0 hNe2, ?_⟩
      intro p hp
      rw [hLast2] at hp
      obtain rfl : p = (k, ws) := (Option.some.inj hp).symm
      refine ⟨Or.inl ?_, ?_⟩
      · show (k : Int) + ws.length = _
        simp [runsEnd]
      · intro p2 hp2
        exact hrest_ge p2 hp2

theorem mergeFold_inv (total : List (Nat × Nat)) :
    ∀ (rem : List (Nat × List Nat)) (acc : MergeSt),
      MInv total acc rem →
      (∀ q ∈ rem, q.2 ≠ []) → (∀ q ∈ rem, 1 ≤ q.1) →
      List.Pairwise (fun a b => a.1 + a.2.length ≤ b.1) rem →
      MInv total (rem.foldl mergeStep acc) [] := by
  intro rem
  induction rem with
  | nil =>
      intro acc h _ _ _
      exact h
  | cons r rest ih =>
      intro acc hinv hne hpos hpair
      rw [List.foldl_cons]
      exact ih (mergeStep acc r)
        (mergeStep_inv total acc r rest hinv hne hpos hpair)
        (fun q hq => hne q (List.mem_cons_of_mem r hq))
        (fun q hq => hpos q (List.mem_cons_of_mem r hq))
        (List.pairwise_cons.mp hpair).2

/-- The backward-merge pass preserves the expansion and keeps runs
nonempty. -/
theorem mergeRun_spec (runs : List (Nat × List Nat)) (marks : List Nat)
    (hne : ∀ q ∈ runs, q.2 ≠ []) (hpos : ∀ q ∈ runs, 1 ≤ q.1)
    (hpair : List.Pairwise (fun a b => a.1 + a.2.length ≤ b.1) runs) :
    expandRuns (mergeRun runs marks) = expandRuns runs ∧
    ∀ q ∈ mergeRun runs marks, q.2 ≠ [] := by
  have h := mergeFold_inv (expandRuns runs) runs
    { out := [], marks := marks, nextk := -1, prevint := false }
    (by
      refine ⟨by simp [expandRuns], by simp, fun _ => rfl, ?_⟩
      intro p hp
      simp at hp) hne hpos hpair
  obtain ⟨hA, hB, -, -⟩ := h
  refine ⟨?_, hB⟩
  rw [← hA]
  simp [mergeRun, expandRuns]

theorem sortRuns_sorted_id :
    ∀ l : List (Nat × List Nat),
      List.Pairwise (fun a b : Nat × List Nat => a.1 ≤ b.1) l →
      sortRuns l = l := by
  intro l
  induction l with
  | nil => intro _; rfl
  | cons p rest ih =>
      intro h
      show insertSorted p (sortRuns rest) = p :: rest
      rw [ih (List.pairwise_cons.mp h).2]
      cases rest with
      | nil => rfl
      | cons q rs =>
          show insertSorted p (q :: rs) = _
          unfold insertSorted
          rw [if_pos ((List.pairwise_cons.mp h).1 q
            (List.mem_cons_self q rs))]

theorem pairwise_key_le (l : List (Nat × List Nat))
    (hne : ∀ q ∈ l, q.2 ≠ [])
    (h : List.Pairwise (fun a b => a.1 + a.2.length ≤ b.1) l) :
    List.Pairwise (fun a b : Nat × List Nat => a.1 ≤ b.1) l := by
  induction l with
  | nil => exact List.Pairwise.nil
  | cons p rest ih =>
      rw [List.pairwise_cons] at h ⊢
      refine ⟨?_, ih (fun q hq => hne q (List.mem_cons_of_mem _ hq)) h.2⟩
      intro q hq
      have := h.1 q hq
      omega

theorem zip_const (w0 : Nat) :
    ∀ (ws : List Nat) (k : Nat), (∀ w ∈ ws, w = w0) →
      (List.range' k ws.length).zip ws =
        (List.range' k ws.length).map (fun c => (c, w0)) := by
  intro ws
  induction ws with
  | nil => intro k _; rfl
  | cons a as ih =>
      intro k h
      have hlen : (a :: as).length = as.length + 1 := rfl
      rw [hlen, List.range'_succ, List.zip_cons_cons, List.map_cons,
        h a (List.mem_cons_self _ _),
        ih (k + 1) (fun w hw => h w (List.mem_cons_of_mem _ hw))]

/-- Serializing a nonempty run and expanding it recovers exactly its
coverage, whether it went out as a uniform range or an explicit array. -/
theorem expandEntry_serializeRun (p : Nat × List Nat) (h : p.2 ≠ []) :
    expandEntry (serializeRun p) = (List.range' p.1 p.2.length).zip p.2 := by
  unfold serializeRun
  by_cases hall : p.2 ≠ [] ∧ p.2.all (fun w => w == p.2.headD 0)
  · rw [if_pos hall]
    show (List.range' p.1 (p.1 + p.2.length - 1 + 1 - p.1)).map
      (fun c => (c, p.2.headD 0)) = _
    have hlen : p.1 + p.2.length - 1 + 1 - p.1 = p.2.length := by
      have : 0 < p.2.length := List.length_pos.mpr h
      omega
    rw [hlen]
    refine (zip_const (p.2.headD 0) p.2 p.1 ?_).symm
    intro w hw
    have := List.all_eq_true.mp hall.2 w hw
    simpa using this
  · rw [if_neg hall]
    rfl

theorem expandW_serializeW (runs : List (Nat × List Nat))
    (h : ∀ q ∈ runs, q.2 ≠ []) :
    expandW (serializeW runs) = expandRuns runs := by
  induction runs with
  | nil => rfl
  | cons p rest ih =>
      show expandW (serializeRun p :: serializeW rest) = _
      rw [expandRuns_cons]
      simp only [expandW, List.flatMap_cons]
      rw [expandEntry_serializeRun p (h p (List.mem_cons_self _ _))]
      exact congrArg _ (ih (fun q hq => h q (List.mem_cons_of_mem _ hq)))

/-- **C2.** Width-range compression round trip: for every per-code-point
width table, usage set and maximal used code point, expanding the
serialized `/W` ranges that `_putTTfontwidths` emits (its backward-merge
post-pass included) reproduces exactly the retained code points with
their original widths, in order and without drops or duplicates:
code points with raw width 0 are skipped, the sentinel width 65535 is
kept as an explicit width 0, and every retained code point appears
exactly once with its exact width. -/
theorem ttf_width_roundtrip (cw : Nat → Nat) (inSubset : Nat → Bool)
    (maxUni : Nat) :
    expandW (putTTfontwidths cw inSubset maxUni) =
      retainedPairs cw inSubset maxUni := by
  have hinv := widthMainLoop_inv cw inSubset maxUni
  simp only [putTTfontwidths]
  set st := widthMainLoop cw inSubset maxUni with hst
  cases hprev : st.prev with
  | none =>
      simp only [WInv, hprev] at hinv
      obtain ⟨hr0, hd0⟩ := hinv
      rw [hr0, hd0]
      rfl
  | some pcw =>
      obtain ⟨pc, pw⟩ := pcw
      simp only [WInv, hprev] at hinv
      obtain ⟨hexp, hne, hend, hpos, hpair, -, -, -⟩ := hinv
      have hsorted : sortRuns st.range = st.range :=
        sortRuns_sorted_id _ (pairwise_key_le _ hne hpair)
      obtain ⟨hmerge, hmne⟩ :=
        mergeRun_spec st.range st.rangeInterval hne hpos hpair
      rw [hsorted, expandW_serializeW _ hmne, hmerge, hexp]

end PyFPDF
